import Mathlib

/-!
# Verification of the hw3 key-value store (`src/hw3/database.c`)

Shallow embedding of the dataset engine of `src/hw3/database.c`:
the two-table incrementally rehashed hash index, the doubly linked
list values, the per-verb command handlers dispatched by the worker
loop (`main_thread`), the command parser's action resolution, and the
JSON snapshot persistence (`db_save` / the load loop of `db_start`).

Conventions of the embedding:

* `db_uint_t` is a 64-bit unsigned integer (`%lu` is used to print it);
  it is modelled as `Nat` with explicit `% 2^64` wherever the C code can
  wrap (the `list->length -= counted` subtractions and the
  `stop - start + 1` length computation).  `DB_UINT_MAX` is `2^64 - 1`.
* C strings are `String`; `helper_strdup` makes a copy whose bytes are
  equal to the source, so a strdup is the identity at the value level.
* `murmurhash2` is deterministic but seeded with the configured
  `hash_seed` (wall-clock time by default, `db_config_hash_seed`).  All
  table-level definitions therefore take the hash function
  `hash : String → Nat` as a parameter; none of the verified properties
  depend on the concrete mixing function, and the counterexamples below
  are bucket-placement independent (they rely only on the fact that the
  same key always hashes to the same bucket, or need a specific hash
  function which is then supplied explicitly).
* A `DLList` is modelled by the sequence of node payloads reachable
  forward from `head` (`elems`) together with the stored `length` field
  (`len`), which the code does not keep in sync with the node count in
  all paths.  The pops and pushes manipulate nodes through `head`/`next`
  (resp. `tail`/`prev`) pointers; the model applies the pointer updates
  to `elems` exactly as the code applies them to the chain.
-/

set_option maxRecDepth 10000

namespace HW3DB

/-- `2^64`, the modulus of `db_uint_t` arithmetic. -/
def TWO64 : Nat := 2 ^ 64

/-- `DB_UINT_MAX`, used by `db_lrange` as the "until the end" sentinel. -/
def DB_UINT_MAX : Nat := TWO64 - 1

/-- Wrapping (`db_uint_t`) subtraction `a - b`. -/
def wsub (a b : Nat) : Nat := (a + (TWO64 - b % TWO64)) % TWO64

/-- `to_uppercase` from `utils.c`: ASCII `toupper` applied to every byte. -/
def toUpperAscii (s : String) : String := String.mk (s.data.map Char.toUpper)

/-- The first `strtok(command_copy, " ")` token of `parse_command`:
skip leading spaces, take the maximal run up to the next space. -/
def firstToken (line : String) : String :=
  (((line.splitOn " ").filter (fun t => t ≠ "")).headD "")

/-- C `isspace` in the default locale. -/
def isSpaceC (c : Char) : Prop := c = ' ' ∨ c = '\t' ∨ c = '\n' ∨ c = '\x0b' ∨ c = '\x0c' ∨ c = '\r'

instance : DecidablePred isSpaceC := fun c =>
  inferInstanceAs (Decidable (c = ' ' ∨ c = '\t' ∨ c = '\n' ∨ c = '\x0b' ∨ c = '\x0c' ∨ c = '\r'))

/-- Accumulate the decimal digits of a `strtoul` parse. -/
def digitsVal : List Char → Nat → Nat
  | [], acc => acc
  | c :: rest, acc =>
    if c.isDigit then digitsVal rest (acc * 10 + (c.toNat - '0'.toNat)) else acc

/-- `strtoul(s, NULL, 10)`: skip `isspace` characters, consume an optional
sign, consume decimal digits (an empty digit run yields 0), saturate at
`ULONG_MAX` on overflow, and negate modulo `2^64` if the sign was `-`. -/
def strtoulDec (s : String) : Nat :=
  let cs := s.toList.dropWhile (fun c => decide (isSpaceC c))
  let (neg, ds) : Bool × List Char :=
    match cs with
    | '-' :: rest => (true, rest)
    | '+' :: rest => (false, rest)
    | rest => (false, rest)
  let m := digitsVal (ds.takeWhile Char.isDigit) 0
  let m := if m ≥ TWO64 then TWO64 - 1 else m
  if neg then (TWO64 - m % TWO64) % TWO64 else m

/-! ## Doubly linked lists (`DLList`) -/

/-- A `DLList`: `elems` is the node data read forward from `head`,
`len` is the stored `length` field. -/
structure DLL where
  elems : List String
  len : Nat
  deriving DecidableEq, Repr

/-- `create_dllist()`: head, tail `NULL`, length 0. -/
def emptyDLL : DLL := ⟨[], 0⟩

/-- The list invariant of the spec: the stored length equals the number
of reachable nodes (whence `length == 0 ⇔ head == tail == nil`). -/
def dllWF (l : DLL) : Prop := l.len = l.elems.length

instance : DecidablePred dllWF := fun l =>
  inferInstanceAs (Decidable (l.len = l.elems.length))

/-- The `LPUSH` loop of `db_lpush`: each value in argument order is made
the new head (`list->head = create_dlnode(v, NULL, list->head)`),
incrementing the stored length. -/
def dllPushFrontAll (l : DLL) (vs : List String) : DLL :=
  vs.foldl (fun l v => ⟨v :: l.elems, l.len + 1⟩) l

/-- The `RPUSH` loop of `db_rpush`: each value in argument order is made
the new tail. -/
def dllPushBackAll (l : DLL) (vs : List String) : DLL :=
  vs.foldl (fun l v => ⟨l.elems ++ [v], l.len + 1⟩) l

/-- Auxiliary recursion for `lpopAdvance`: `k` is the number of times
`++counted < count` can still succeed (`count - counted - 1`), which
makes the loop structurally recursive. -/
def lpopAdvanceAux : Nat → Nat → List String → Nat × List String
  | 0, counted, cur => (counted + 1, cur)
  | k + 1, counted, cur =>
    match cur with
    | [] => (counted + 1, [])
    | _ :: rest => lpopAdvanceAux k (counted + 1) rest

/-- The cursor walk `while (++counted < count && last_removed)
last_removed = last_removed->next;` shared by `db_lpop` (forward from
`head`) and `db_rpop` (backward from `tail`, on the reversed chain).
`cur` is the chain suffix starting at the node the cursor points to
(`[]` means the cursor is `NULL`).  Returns the final `counted` and
cursor; note `counted` is incremented by the condition evaluation even
on the exiting iteration. -/
def lpopAdvance (count : Nat) (counted : Nat) (cur : List String) : Nat × List String :=
  lpopAdvanceAux (count - counted - 1) counted cur

/-- `db_lpop` body on a list and a count, after `get_dllist` succeeded:
returns (updated stored list, reply list).

Trace of the source: `first_removed = head`, the cursor walk above, then
if the cursor is non-`NULL` the list head becomes `cursor->next` and the
cursor's `next` is cut (so the reply chain is the first `counted`
nodes); if the cursor ran off the end (`count` exceeds the node count)
the head is left pointing at the whole original chain, which is also
handed to the reply.  `list->length -= counted` in `db_uint_t`
arithmetic. -/
def db_lpop_core (l : DLL) (count : Nat) : DLL × DLL :=
  if count = 0 ∨ l.elems = [] then (l, emptyDLL)
  else
    let w := lpopAdvance count 0 l.elems
    if w.2 = [] then
      (⟨l.elems, wsub l.len w.1⟩, ⟨l.elems, w.1⟩)
    else
      (⟨w.2.tail, wsub l.len w.1⟩, ⟨l.elems.take w.1, w.1⟩)

/-- `db_rpop` body: symmetric walk backward from `tail` along `prev`
(the reversed chain).  If the cursor is non-`NULL`, the tail becomes
`cursor->prev` and the reply's head is the cursor node (so the reply
chain, read forward, is the removed suffix in original order).  If the
cursor ran off the front, the stored list keeps its whole chain and the
reply head is `NULL` (its forward read is empty). -/
def db_rpop_core (l : DLL) (count : Nat) : DLL × DLL :=
  if count = 0 ∨ l.elems = [] then (l, emptyDLL)
  else
    let w := lpopAdvance count 0 l.elems.reverse
    if w.2 = [] then
      (⟨l.elems, wsub l.len w.1⟩, ⟨[], w.1⟩)
    else
      (⟨w.2.tail.reverse, wsub l.len w.1⟩, ⟨(l.elems.reverse.take w.1).reverse, w.1⟩)

/-- `db_lrange` first tail-path loop:
`while (index != stop && curr_node) { curr_node = curr_node->prev; --index; }`
walking `cur` (the chain read from `tail` backwards). -/
def walkBackTo (stop : Nat) : Nat → List String → Nat × List String
  | index, cur =>
    if index = stop then (index, cur)
    else
      match cur with
      | [] => (index, [])
      | _ :: rest => walkBackTo stop (index - 1) rest

/-- `db_lrange` second tail-path loop:
`while (index >= start && curr_node)`, prepending each visited payload
(`create_dlnode(data, NULL, new_node)`).  The unsigned `--index` wraps
below zero in C; the loop then runs until `curr_node == NULL`, which the
`Nat` truncation at 0 reproduces (both exits collect the same nodes). -/
def collectBack (start : Nat) : Nat → List String → List String → List String
  | index, cur, acc =>
    if start ≤ index then
      match cur with
      | [] => acc
      | d :: rest => collectBack start (index - 1) rest (d :: acc)
    else acc

/-- `db_lrange` first head-path loop:
`while (index != start && curr_node) { curr_node = curr_node->next; ++index; }`. -/
def walkFwdTo (startIdx : Nat) : Nat → List String → Nat × List String
  | index, cur =>
    if index = startIdx then (index, cur)
    else
      match cur with
      | [] => (index, [])
      | _ :: rest => walkFwdTo startIdx (index + 1) rest

/-- `db_lrange` second head-path loop:
`while (index <= stop && curr_node)`, appending each visited payload
(`create_dlnode(data, new_node, NULL)`). -/
def collectFwd (stop : Nat) : Nat → List String → List String → List String
  | index, cur, acc =>
    if index ≤ stop then
      match cur with
      | [] => acc
      | d :: rest => collectFwd stop (index + 1) rest (acc ++ [d])
    else acc

/-- `db_lrange` body on a found list with already-coerced unsigned
`start`/`stop` (`stop` defaults to `DB_UINT_MAX` when absent).  Empty
reply when the stored length is 0 or `start > stop`; `stop` clamps to
`length - 1`; traversal enters from the tail when
`start > length - 1 - stop`, else from the head; the reply's stored
length is `stop - start + 1` in `db_uint_t` arithmetic. -/
def db_lrange_core (l : DLL) (start stop0 : Nat) : DLL :=
  if l.len = 0 ∨ start > stop0 then emptyDLL
  else
    let stop := if stop0 = DB_UINT_MAX ∨ stop0 > l.len - 1 then l.len - 1 else stop0
    if start > l.len - 1 - stop then
      let w := walkBackTo stop (l.len - 1) l.elems.reverse
      ⟨collectBack start w.1 w.2 [], (wsub stop start + 1) % TWO64⟩
    else
      let w := walkFwdTo start 0 l.elems
      ⟨collectFwd stop w.1 w.2 [], (wsub stop start + 1) % TWO64⟩

/-! ## The two-table hash index -/

/-- The tagged value union of an `HTEntry` (`db_type_t` tag plus
`union DBValue`); only `DB_TYPE_STRING` and `DB_TYPE_LIST` are ever
stored. -/
inductive DBVal where
  | vstr (s : String)
  | vlist (l : DLL)
  deriving DecidableEq, Repr

/-- An `HTEntry` (the collision-chain `next` pointer is represented by
the position in the bucket list). -/
structure HTEntry where
  key : String
  val : DBVal
  deriving DecidableEq, Repr

/-- A `HashTable`: slot count, stored entry count, and the array of
collision chains (`entries`, of length `size`). -/
structure HashTable where
  size : Nat
  count : Nat
  entries : List (List HTEntry)
  deriving DecidableEq, Repr

/-- The engine state: `tables[0]`, `tables[1]` (`none` unless a rehash
is in progress) and `rehashing_index` (-1 when idle). -/
structure DB where
  t0 : HashTable
  t1 : Option HashTable
  rehashIdx : Int
  deriving DecidableEq, Repr

/-- `create_table(size)`: all slots empty, count 0. -/
def create_table (m : Nat) : HashTable := ⟨m, 0, List.replicate m []⟩

/-- `db_flushall()` / the fresh state: one empty table of
`INITIAL_TABLE_SIZE = 16` slots, no rehash. -/
def freshDB : DB := ⟨create_table 16, none, -1⟩

/-- `murmurhash2(key, strlen(key)) % table->size`. -/
def bucketIdx (hash : String → Nat) (t : HashTable) (k : String) : Nat := hash k % t.size

/-- Read a slot's collision chain. -/
def bucketGet (t : HashTable) (i : Nat) : List HTEntry := t.entries.getD i []

/-- Walk a collision chain comparing keys (`strcmp(entry->key, key) == 0`). -/
def chainFind (k : String) : List HTEntry → Option HTEntry
  | [] => none
  | e :: rest => if e.key = k then some e else chainFind k rest

/-- Remove the first entry with the given key from a chain, returning it. -/
def chainRemoveFirst (k : String) : List HTEntry → Option HTEntry × List HTEntry
  | [] => (none, [])
  | e :: rest =>
    if e.key = k then (some e, rest)
    else
      let r := chainRemoveFirst k rest
      (r.1, e :: r.2)

/-- Apply `f` to the first entry with the given key in a chain (the
in-place mutation of the entry object that `get_entry` returned). -/
def chainUpdateFirst (k : String) (f : HTEntry → HTEntry) : List HTEntry → List HTEntry
  | [] => []
  | e :: rest => if e.key = k then f e :: rest else e :: chainUpdateFirst k f rest

/-- `get_entry(key)`: probe `tables[1]` first when it exists, then
`tables[0]`, each in the bucket `hash(key) % size`. -/
def get_entry (hash : String → Nat) (s : DB) (k : String) : Option HTEntry :=
  match s.t1 with
  | some t1 =>
    match chainFind k (bucketGet t1 (bucketIdx hash t1 k)) with
    | some e => some e
    | none => chainFind k (bucketGet s.t0 (bucketIdx hash s.t0 k))
  | none => chainFind k (bucketGet s.t0 (bucketIdx hash s.t0 k))

/-- Prepend an entry to its bucket's chain and bump the count
(`entry->next = table->entries[index]; table->entries[index] = entry;
++table->count;`). -/
def tablePrepend (hash : String → Nat) (t : HashTable) (e : HTEntry) : HashTable :=
  let i := bucketIdx hash t e.key
  { t with entries := t.entries.set i (e :: bucketGet t i), count := t.count + 1 }

/-- `add_entry(entry)`: insert into `tables[1]` while rehashing, else
`tables[0]`. -/
def add_entry (hash : String → Nat) (s : DB) (e : HTEntry) : DB :=
  match s.t1 with
  | some t1 => { s with t1 := some (tablePrepend hash t1 e) }
  | none => { s with t0 := tablePrepend hash s.t0 e }

/-- Remove the first match from one table's bucket, decrementing the
count when something was unlinked. -/
def tableRemove (hash : String → Nat) (t : HashTable) (k : String) :
    Option HTEntry × HashTable :=
  let i := bucketIdx hash t k
  let r := chainRemoveFirst k (bucketGet t i)
  match r.1 with
  | some e => (some e, { t with entries := t.entries.set i r.2, count := t.count - 1 })
  | none => (none, t)

/-- `remove_entry(key)`: probe `tables[1]` first when it exists, then
`tables[0]`. -/
def remove_entry (hash : String → Nat) (s : DB) (k : String) : Option HTEntry × DB :=
  match s.t1 with
  | some t1 =>
    let r := tableRemove hash t1 k
    match r.1 with
    | some e => (some e, { s with t1 := some r.2 })
    | none =>
      let r0 := tableRemove hash s.t0 k
      (r0.1, { s with t0 := r0.2 })
  | none =>
    let r0 := tableRemove hash s.t0 k
    (r0.1, { s with t0 := r0.2 })

/-- Mutate in place the entry object that `get_entry` would return:
the handlers fetch an entry (or its list) and write through the
pointer, so the update lands on the first probe-order occurrence of the
key. -/
def updateFirst (hash : String → Nat) (s : DB) (k : String) (f : HTEntry → HTEntry) : DB :=
  match s.t1 with
  | some t1 =>
    let i1 := bucketIdx hash t1 k
    if (chainFind k (bucketGet t1 i1)).isSome then
      { s with t1 := some { t1 with entries := t1.entries.set i1 (chainUpdateFirst k f (bucketGet t1 i1)) } }
    else
      let i0 := bucketIdx hash s.t0 k
      { s with t0 := { s.t0 with entries := s.t0.entries.set i0 (chainUpdateFirst k f (bucketGet s.t0 i0)) } }
  | none =>
    let i0 := bucketIdx hash s.t0 k
    { s with t0 := { s.t0 with entries := s.t0.entries.set i0 (chainUpdateFirst k f (bucketGet s.t0 i0)) } }

/-- The migration loop of `rehash_step`: each entry of the chain at
`tables[0]->entries[rehashing_index]`, in chain order, is prepended to
its bucket in `tables[1]` (so same-bucket entries end up reversed in
front of the existing chain), incrementing `tables[1]->count`. -/
def moveChain (hash : String → Nat) (t1 : HashTable) (chain : List HTEntry) : HashTable :=
  chain.foldl (tablePrepend hash) t1

/-- `rehash_step()`: migrate the whole chain at the cursor, clear the
slot, decrement the cursor; when the cursor reaches -1, free
`tables[0]`, move `tables[1]` into `tables[0]` and end the rehash. -/
def rehash_step (hash : String → Nat) (s : DB) : DB :=
  match s.t1 with
  | none => s
  | some t1 =>
    let idx := s.rehashIdx.toNat
    let chain := bucketGet s.t0 idx
    let t1m := moveChain hash t1 chain
    let t0m : HashTable :=
      { s.t0 with entries := s.t0.entries.set idx [], count := s.t0.count - chain.length }
    let newIdx := s.rehashIdx - 1
    if newIdx = -1 then ⟨t1m, none, newIdx⟩
    else ⟨t0m, some t1m, newIdx⟩

/-- `maintenance()`: when not rehashing, compare the load factor
against the 0.7/0.1 thresholds and allocate the rehash table (the
integer comparisons `10*count > 7*size` and `10*count < size` agree
with the C `double` comparisons `count > 0.7*size` and
`count < 0.1*size` for every power-of-two size this engine creates);
when rehashing, perform one `rehash_step`. -/
def maintenance (hash : String → Nat) (s : DB) : DB :=
  match s.t1 with
  | none =>
    if 10 * s.t0.count > 7 * s.t0.size then
      { s with t1 := some (create_table (s.t0.size * 2)), rehashIdx := (s.t0.size : Int) - 1 }
    else if 16 < s.t0.size ∧ 10 * s.t0.count < s.t0.size then
      { s with t1 := some (create_table (s.t0.size / 2)), rehashIdx := (s.t0.size : Int) - 1 }
    else s
  | some _ => rehash_step hash s

/-- All entries of one optional table, bucket order then chain order. -/
def joinOpt : Option HashTable → List HTEntry
  | none => []
  | some t => t.entries.flatten

/-- All entries of the index in the order `db_save` and `db_keys` walk
them: `tables[0]` then `tables[1]`. -/
def allEntriesList (s : DB) : List HTEntry := s.t0.entries.flatten ++ joinOpt s.t1

/-! ## Requests, replies and the command handlers -/

/-- A reply payload (`DBReply`'s `type` tag and value union). -/
inductive RVal where
  | vnull
  | verr (msg : String)
  | vstrR (s : String)
  | vuint (n : Nat)
  | vboolR (b : Bool)
  | vlistR (l : DLL)
  deriving DecidableEq, Repr

/-- A `DBReply`: the worker presets `ok = true` before dispatch;
`set_reply_error` flips it to false. -/
structure DBReply where
  ok : Bool
  val : RVal
  deriving DecidableEq, Repr

/-- The reply as the worker hands it to a handler. -/
def initReply : DBReply := ⟨true, .vnull⟩

/-- `set_reply_error(reply, message)`. -/
def errReply (m : String) : DBReply := ⟨false, .verr m⟩

def DB_ERR_ARG_ERROR : String := "ERR wrong arguments "
def DB_ERR_WRONGTYPE : String := "WRONGTYPE Operation against a key holding the wrong kind of value"
def DB_ERR_NONEXISTENT_KEY : String := "ERR no such key"
def DB_ERR_UNKNOWN_COMMAND : String := "ERR unknown command"

/-- A `DBArg` (string or already-coerced unsigned). -/
inductive DBArg where
  | astr (s : String)
  | auint (n : Nat)
  deriving DecidableEq, Repr

/-- Read `arg->value.string` (the parser only produces string args). -/
def argAsString : DBArg → String
  | .astr s => s
  | .auint _ => ""

/-- `arg_string_to_uint(arg)`: a string arg is converted in place with
`strtoul(s, NULL, 10)`; a non-string arg is returned unchanged. -/
def arg_string_to_uint : DBArg → DBArg
  | .astr s => .auint (strtoulDec s)
  | a => a

/-- Read `arg->value.unsigned_int`. -/
def argAsUint : DBArg → Nat
  | .auint n => n
  | .astr _ => 0

/-- `db_get`: missing arg → arg error; an entry of string type → a
strdup of its value; otherwise (absent key or non-string entry) a nil
reply. -/
def db_get (hash : String → Nat) (s : DB) (args : List DBArg) : DB × DBReply :=
  match args with
  | [] => (s, errReply DB_ERR_ARG_ERROR)
  | a1 :: _ =>
    match get_entry hash s (argAsString a1) with
    | some e =>
      match e.val with
      | .vstr v => (s, ⟨true, .vstrR v⟩)
      | _ => (s, ⟨true, .vnull⟩)
    | none => (s, ⟨true, .vnull⟩)

/-- `db_set`: update the found entry in place via `set_entry_value`
(replacing the value and, on a kind change, the kind), else add a fresh
entry; reply bool true. -/
def db_set (hash : String → Nat) (s : DB) (args : List DBArg) : DB × DBReply :=
  match args with
  | a1 :: a2 :: _ =>
    let k := argAsString a1
    let v := argAsString a2
    match get_entry hash s k with
    | some _ => (updateFirst hash s k (fun e => { e with val := .vstr v }), ⟨true, .vboolR true⟩)
    | none => (add_entry hash s ⟨k, .vstr v⟩, ⟨true, .vboolR true⟩)
  | _ => (s, errReply DB_ERR_ARG_ERROR)

/-- `db_rename`: `remove_entry(old)`; absent → "ERR no such key";
otherwise overwrite the entry's key and `add_entry` it back (no lookup
of the new key is performed). -/
def db_rename (hash : String → Nat) (s : DB) (args : List DBArg) : DB × DBReply :=
  match args with
  | a1 :: a2 :: _ =>
    let r := remove_entry hash s (argAsString a1)
    match r.1 with
    | none => (r.2, errReply DB_ERR_NONEXISTENT_KEY)
    | some e => (add_entry hash r.2 { e with key := argAsString a2 }, ⟨true, .vboolR true⟩)
  | _ => (s, errReply DB_ERR_ARG_ERROR)

/-- `db_del`: remove and free each named key, counting successes. -/
def db_del (hash : String → Nat) (s : DB) (args : List DBArg) : DB × DBReply :=
  match args with
  | [] => (s, errReply DB_ERR_ARG_ERROR)
  | _ =>
    let r := args.foldl
      (fun (acc : DB × Nat) a =>
        let rr := remove_entry hash acc.1 (argAsString a)
        match rr.1 with
        | some _ => (rr.2, acc.2 + 1)
        | none => (rr.2, acc.2))
      (s, 0)
    (r.1, ⟨true, .vuint r.2⟩)

/-- `get_dllist(key)`: the entry's list if it exists with list type. -/
def get_dllist (hash : String → Nat) (s : DB) (k : String) : Option DLL :=
  match get_entry hash s k with
  | some e =>
    match e.val with
    | .vlist l => some l
    | _ => none
  | none => none

/-- Store a new list value into the entry holding key `k` (the handlers
mutate the list object the entry points to). -/
def putList (hash : String → Nat) (s : DB) (k : String) (l : DLL) : DB :=
  updateFirst hash s k (fun e => { e with val := .vlist l })

/-- `db_lpush`: `get_or_create_dllist`, then prepend every value
argument; a non-list entry under the key replies WRONGTYPE; reply is
the resulting stored length.  (In the source the new empty list is
inserted first and then mutated through the entry's pointer; the model
stores the final list.) -/
def db_lpush (hash : String → Nat) (s : DB) (args : List DBArg) : DB × DBReply :=
  match args with
  | a1 :: a2 :: rest =>
    let k := argAsString a1
    let vs := (a2 :: rest).map argAsString
    match get_entry hash s k with
    | some e =>
      match e.val with
      | .vlist l =>
        let l2 := dllPushFrontAll l vs
        (putList hash s k l2, ⟨true, .vuint l2.len⟩)
      | _ => (s, errReply DB_ERR_WRONGTYPE)
    | none =>
      let l2 := dllPushFrontAll emptyDLL vs
      (add_entry hash s ⟨k, .vlist l2⟩, ⟨true, .vuint l2.len⟩)
  | _ => (s, errReply DB_ERR_ARG_ERROR)

/-- `db_rpush`: as `db_lpush` but appending at the tail. -/
def db_rpush (hash : String → Nat) (s : DB) (args : List DBArg) : DB × DBReply :=
  match args with
  | a1 :: a2 :: rest =>
    let k := argAsString a1
    let vs := (a2 :: rest).map argAsString
    match get_entry hash s k with
    | some e =>
      match e.val with
      | .vlist l =>
        let l2 := dllPushBackAll l vs
        (putList hash s k l2, ⟨true, .vuint l2.len⟩)
      | _ => (s, errReply DB_ERR_WRONGTYPE)
    | none =>
      let l2 := dllPushBackAll emptyDLL vs
      (add_entry hash s ⟨k, .vlist l2⟩, ⟨true, .vuint l2.len⟩)
  | _ => (s, errReply DB_ERR_ARG_ERROR)

/-- `db_lpop`: the count is the second argument coerced with
`arg_string_to_uint`, defaulting to 1 (`add_arg_uint(request, 1)`); a
missing or non-list key replies nil; otherwise run the pop and store
the updated list back through the entry's pointer. -/
def db_lpop (hash : String → Nat) (s : DB) (args : List DBArg) : DB × DBReply :=
  match args with
  | [] => (s, errReply DB_ERR_ARG_ERROR)
  | a1 :: rest =>
    let count := match rest with
      | [] => 1
      | a2 :: _ => argAsUint (arg_string_to_uint a2)
    let k := argAsString a1
    match get_dllist hash s k with
    | none => (s, ⟨true, .vnull⟩)
    | some l =>
      let r := db_lpop_core l count
      (putList hash s k r.1, ⟨true, .vlistR r.2⟩)

/-- `db_rpop`: as `db_lpop` from the tail. -/
def db_rpop (hash : String → Nat) (s : DB) (args : List DBArg) : DB × DBReply :=
  match args with
  | [] => (s, errReply DB_ERR_ARG_ERROR)
  | a1 :: rest =>
    let count := match rest with
      | [] => 1
      | a2 :: _ => argAsUint (arg_string_to_uint a2)
    let k := argAsString a1
    match get_dllist hash s k with
    | none => (s, ⟨true, .vnull⟩)
    | some l =>
      let r := db_rpop_core l count
      (putList hash s k r.1, ⟨true, .vlistR r.2⟩)

/-- `db_llen`: the stored `length` field, 0 when the key is missing or
not a list. -/
def db_llen (hash : String → Nat) (s : DB) (args : List DBArg) : DB × DBReply :=
  match args with
  | [] => (s, errReply DB_ERR_ARG_ERROR)
  | a1 :: _ =>
    match get_dllist hash s (argAsString a1) with
    | some l => (s, ⟨true, .vuint l.len⟩)
    | none => (s, ⟨true, .vuint 0⟩)

/-- `db_lrange`: `start` defaults to 0 and `stop` to `DB_UINT_MAX`
(both coerced in place with `arg_string_to_uint` when present); a
missing or non-list key leaves the freshly created empty reply list. -/
def db_lrange (hash : String → Nat) (s : DB) (args : List DBArg) : DB × DBReply :=
  match args with
  | [] => (s, errReply DB_ERR_ARG_ERROR)
  | a1 :: rest =>
    let start := match rest with
      | [] => 0
      | a2 :: _ => argAsUint (arg_string_to_uint a2)
    let stop := match rest with
      | [] => DB_UINT_MAX
      | _ :: rest2 =>
        match rest2 with
        | [] => DB_UINT_MAX
        | a3 :: _ => argAsUint (arg_string_to_uint a3)
    match get_dllist hash s (argAsString a1) with
    | some l => (s, ⟨true, .vlistR (db_lrange_core l start stop)⟩)
    | none => (s, ⟨true, .vlistR emptyDLL⟩)

/-- `db_keys`: every key of both tables appended to the reply list. -/
def db_keys (s : DB) : DB × DBReply :=
  let ks := (allEntriesList s).map (fun e => e.key)
  (s, ⟨true, .vlistR ⟨ks, ks.length⟩⟩)

/-! ## Parser action resolution and the worker dispatch -/

/-- `db_action_t`. -/
inductive DbAction where
  | unknown
  | save
  | start
  | set
  | get
  | rename
  | del
  | lpush
  | lpop
  | rpush
  | rpop
  | llen
  | lrange
  | keys
  | flushall
  | infoMem
  | shutdown
  deriving DecidableEq, Repr

/-- The `strcmp` chain of `parse_command` applied to the
`to_uppercase`d first token. -/
def actionOfToken (tok : String) : DbAction :=
  let t := toUpperAscii tok
  if t = "SAVE" then .save
  else if t = "START" then .start
  else if t = "SET" then .set
  else if t = "GET" then .get
  else if t = "RENAME" then .rename
  else if t = "DEL" then .del
  else if t = "LPUSH" then .lpush
  else if t = "LPOP" then .lpop
  else if t = "RPUSH" then .rpush
  else if t = "RPOP" then .rpop
  else if t = "LLEN" then .llen
  else if t = "LRANGE" then .lrange
  else if t = "KEYS" then .keys
  else if t = "FLUSHALL" then .flushall
  else if t = "INFO_DATASET_MEMORY" then .infoMem
  else if t = "SHUTDOWN" then .shutdown
  else .unknown

/-- The action a command line resolves to. -/
def parseCommandAction (line : String) : DbAction := actionOfToken (firstToken line)

/-- A `DBRequest`. -/
structure DBRequest where
  action : DbAction
  args : List DBArg
  deriving DecidableEq, Repr

/-- The worker's dispatch `switch` in `main_thread`.  `SAVE` writes the
snapshot file and `SHUTDOWN` stops the worker, neither changing the
dataset; `INFO_DATASET_MEMORY`'s numeric value comes from
`malloc_usable_size` introspection, which is outside the embedding (the
dataset is unchanged, which is all that is modelled of it).  `DB_START`
has no case and falls into `default:`, the unknown-command error. -/
def dispatch (hash : String → Nat) (s : DB) (req : DBRequest) : DB × DBReply :=
  match req.action with
  | .get => db_get hash s req.args
  | .set => db_set hash s req.args
  | .rename => db_rename hash s req.args
  | .del => db_del hash s req.args
  | .lpush => db_lpush hash s req.args
  | .lpop => db_lpop hash s req.args
  | .rpush => db_rpush hash s req.args
  | .rpop => db_rpop hash s req.args
  | .llen => db_llen hash s req.args
  | .lrange => db_lrange hash s req.args
  | .keys => db_keys s
  | .flushall => (freshDB, ⟨true, .vboolR true⟩)
  | .infoMem => (s, ⟨true, .vuint 0⟩)
  | .save => (s, ⟨true, .vboolR true⟩)
  | .shutdown => (s, ⟨true, .vboolR true⟩)
  | _ => (s, errReply DB_ERR_UNKNOWN_COMMAND)

/-- One drained queue item: `maintenance()` then the dispatch switch. -/
def execRequest (hash : String → Nat) (s : DB) (req : DBRequest) : DB × DBReply :=
  dispatch hash (maintenance hash s) req

/-- A whole session: requests executed in FIFO order from the fresh
(`db_start`-ed, empty-file) state. -/
def execTrace (hash : String → Nat) (reqs : List DBRequest) : DB :=
  reqs.foldl (fun s r => (execRequest hash s r).1) freshDB

/-! ## Snapshot persistence (`db_save` / the load loop of `db_start`) -/

/-- A top-level JSON value of the snapshot object: a string entry is a
JSON string, a list entry a JSON array of its node payloads in forward
order (the stored `length` field is not serialized). -/
inductive JVal where
  | jstr (s : String)
  | jarr (l : List String)
  deriving DecidableEq, Repr

/-- Serialize one entry the way `db_save` does. -/
def savedOf : DBVal → JVal
  | .vstr v => .jstr v
  | .vlist l => .jarr l.elems

/-- `db_save`: walk `tables[0]` then `tables[1]`, every bucket in
order, every chain front to back, adding one JSON member per entry.
(The byte-level `cJSON_PrintUnformatted`/`cJSON_Parse` round trip is
the identity on this member list.) -/
def db_save_dump (s : DB) : List (String × JVal) :=
  (allEntriesList s).map (fun e => (e.key, savedOf e.val))

/-- Rebuild an entry value from its JSON member as the load loop does:
a string member via `create_entry(key, DB_TYPE_STRING, strdup(...))`, an
array member by `rpush`-building a fresh list (so its stored length is
its node count). -/
def valOfJ : JVal → DBVal
  | .jstr v => .vstr v
  | .jarr l => .vlist ⟨l, l.length⟩

/-- The load loop of `db_start`: starting from the flushed state, for
each member run `maintenance()` and then `add_entry(create_entry(...))`. -/
def db_load (hash : String → Nat) (pairs : List (String × JVal)) : DB :=
  pairs.foldl (fun s p => add_entry hash (maintenance hash s) ⟨p.1, valOfJ p.2⟩) freshDB

/-- The `(key, kind, value)` triples of the index, as compared by the
round-trip property (a list value counts as its element sequence). -/
def indexTriples (s : DB) : List (String × JVal) := db_save_dump s

/-! ## Well-formedness of the index -/

/-- The keys of all live entries, `tables[0]` then `tables[1]`. -/
def keysOf (s : DB) : List String := (allEntriesList s).map (fun e => e.key)

/-- How many entries across both tables hold the given key. -/
def countKey (s : DB) (k : String) : Nat := (keysOf s).count k

/-- The key occurs in some chain of the table. -/
def keyInTable (t : HashTable) (k : String) : Prop :=
  ∃ e ∈ t.entries.flatten, e.key = k

instance (t : HashTable) (k : String) : Decidable (keyInTable t k) :=
  inferInstanceAs (Decidable (∃ e ∈ t.entries.flatten, e.key = k))

/-- The key occurs in the optional rehash table. -/
def keyInOpt (o : Option HashTable) (k : String) : Prop :=
  match o with
  | none => False
  | some t => keyInTable t k

instance : (o : Option HashTable) → (k : String) → Decidable (keyInOpt o k)
  | none, _ => isFalse (fun h => h)
  | some t, k => inferInstanceAs (Decidable (keyInTable t k))

/-- The key is live: some entry in either table holds it. -/
def keyLive (s : DB) (k : String) : Prop := ∃ e ∈ allEntriesList s, e.key = k

instance (s : DB) (k : String) : Decidable (keyLive s k) :=
  inferInstanceAs (Decidable (∃ e ∈ allEntriesList s, e.key = k))

/-- Structural soundness of one table: positive size and a slot array
of exactly `size` chains. -/
def tableShape (t : HashTable) : Prop := 0 < t.size ∧ t.entries.length = t.size

instance (t : HashTable) : Decidable (tableShape t) :=
  inferInstanceAs (Decidable (0 < t.size ∧ t.entries.length = t.size))

/-- Soundness of the rehash bookkeeping: while `tables[1]` exists it is
shaped, the cursor is a valid `tables[0]` slot, and every slot above the
cursor has already been migrated (cleared). -/
def rehashOk (s : DB) : Prop :=
  match s.t1 with
  | none => True
  | some t1 =>
    tableShape t1 ∧ 0 ≤ s.rehashIdx ∧ s.rehashIdx < (s.t0.size : Int) ∧
      ∀ i < s.t0.entries.length, s.rehashIdx < (i : Int) → s.t0.entries.getD i [] = []

/-- The body of `rehashOk`, structurally recursive in the optional
table so that its decider evaluates. -/
def rehashOkAux (t0 : HashTable) (ridx : Int) : Option HashTable → Prop
  | none => True
  | some t1 =>
    tableShape t1 ∧ 0 ≤ ridx ∧ ridx < (t0.size : Int) ∧
      ∀ i < t0.entries.length, ridx < (i : Int) → t0.entries.getD i [] = []

instance : (t0 : HashTable) → (ridx : Int) → (o : Option HashTable) →
    Decidable (rehashOkAux t0 ridx o)
  | _, _, none => inferInstanceAs (Decidable True)
  | _t0, _ridx, some _t1 => inferInstanceAs (Decidable (_ ∧ _))

instance (s : DB) : Decidable (rehashOk s) :=
  decidable_of_iff (rehashOkAux s.t0 s.rehashIdx s.t1)
    (by unfold rehashOk; cases h : s.t1 <;> simp [rehashOkAux, h])

/-- The structural invariant every reachable state satisfies. -/
def TablesOk (s : DB) : Prop := tableShape s.t0 ∧ rehashOk s

instance (s : DB) : Decidable (TablesOk s) :=
  inferInstanceAs (Decidable (tableShape s.t0 ∧ rehashOk s))

/-- Every entry of the table sits in the chain of its hash bucket. -/
def tableBucketed (hash : String → Nat) (t : HashTable) : Prop :=
  ∀ i < t.entries.length, ∀ e ∈ t.entries.getD i [], hash e.key % t.size = i

instance (hash : String → Nat) (t : HashTable) : Decidable (tableBucketed hash t) :=
  inferInstanceAs
    (Decidable (∀ i < t.entries.length, ∀ e ∈ t.entries.getD i [], hash e.key % t.size = i))

/-- Both tables are bucket-consistent for the active hash function. -/
def Bucketed (hash : String → Nat) (s : DB) : Prop :=
  tableBucketed hash s.t0 ∧
    match s.t1 with
    | none => True
    | some t1 => tableBucketed hash t1

/-- The second conjunct of `Bucketed`, structurally recursive in the
optional table. -/
def bucketedAux (hash : String → Nat) : Option HashTable → Prop
  | none => True
  | some t1 => tableBucketed hash t1

instance : (hash : String → Nat) → (o : Option HashTable) → Decidable (bucketedAux hash o)
  | _, none => inferInstanceAs (Decidable True)
  | hash, some t1 => inferInstanceAs (Decidable (tableBucketed hash t1))

instance (hash : String → Nat) (s : DB) : Decidable (Bucketed hash s) :=
  decidable_of_iff (tableBucketed hash s.t0 ∧ bucketedAux hash s.t1)
    (by unfold Bucketed; cases h : s.t1 <;> simp [bucketedAux, h])

/-- No two entries across the two tables hold the same key. -/
def KeysNodup (s : DB) : Prop := (keysOf s).Nodup

instance (s : DB) : Decidable (KeysNodup s) :=
  inferInstanceAs (Decidable (keysOf s).Nodup)

/-- Full well-formedness of the index. -/
def WFS (hash : String → Nat) (s : DB) : Prop :=
  TablesOk s ∧ Bucketed hash s ∧ KeysNodup s

instance (hash : String → Nat) (s : DB) : Decidable (WFS hash s) :=
  inferInstanceAs (Decidable (TablesOk s ∧ Bucketed hash s ∧ KeysNodup s))

/-- A degenerate but legitimate hash function (the claims hold or fail
independently of the mixing function; this one puts every key in bucket
0, which only makes collision chains longer). -/
def hashZero : String → Nat := fun _ => 0

/-- The three-command session exhibiting a duplicate key:
`SET k2 v0; SET k1 v1; RENAME k1 k2`. -/
def renameDupTrace : List DBRequest :=
  [⟨.set, [.astr "k2", .astr "v0"]⟩,
   ⟨.set, [.astr "k1", .astr "v1"]⟩,
   ⟨.rename, [.astr "k1", .astr "k2"]⟩]

/-- Twelve `SET`s (trips the 0.7 load factor on the 16-slot table) and
then `RENAME a1 k2`: the maintenance tick before the rename allocates
the rehash table, the rename removes `a1` from `tables[0]` and
reinserts it under `k2` into `tables[1]`, while the old `k2` entry is
still in `tables[0]`. -/
def rehashDupTrace : List DBRequest :=
  [⟨.set, [.astr "k2", .astr "v0"]⟩,
   ⟨.set, [.astr "a1", .astr "v1"]⟩,
   ⟨.set, [.astr "a2", .astr "v2"]⟩,
   ⟨.set, [.astr "a3", .astr "v3"]⟩,
   ⟨.set, [.astr "a4", .astr "v4"]⟩,
   ⟨.set, [.astr "a5", .astr "v5"]⟩,
   ⟨.set, [.astr "a6", .astr "v6"]⟩,
   ⟨.set, [.astr "a7", .astr "v7"]⟩,
   ⟨.set, [.astr "a8", .astr "v8"]⟩,
   ⟨.set, [.astr "a9", .astr "v9"]⟩,
   ⟨.set, [.astr "b1", .astr "w1"]⟩,
   ⟨.set, [.astr "b2", .astr "w2"]⟩,
   ⟨.rename, [.astr "a1", .astr "k2"]⟩]

/-- The "no rename lands on a live key" side condition under which the
rehash invariant survives (the counterexample below shows it is needed:
`db_rename` never looks up the destination key). -/
def safeReqB (s : DB) (req : DBRequest) : Bool :=
  match req.action, req.args with
  | .rename, _ :: a2 :: _ => !(decide (keyLive s (argAsString a2)))
  | _, _ => true

def SafeReq (s : DB) (req : DBRequest) : Prop := safeReqB s req = true

instance (s : DB) (req : DBRequest) : Decidable (SafeReq s req) :=
  inferInstanceAs (Decidable (safeReqB s req = true))

/-! ## Concrete states used by witnesses and counterexamples -/

/-- A reachable state holding one list entry `k ↦ [x]`. -/
def listKState : DB := (db_lpush hashZero freshDB [.astr "k", .astr "x"]).1

/-- A reachable state holding one string entry `k ↦ v`. -/
def strKState : DB := (db_set hashZero freshDB [.astr "k", .astr "v"]).1

/-- The state just before the duplicate-producing rename: `k2 ↦ v0`,
`k1 ↦ v1`. -/
def preRenameState : DB :=
  execTrace hashZero
    [⟨.set, [.astr "k2", .astr "v0"]⟩, ⟨.set, [.astr "k1", .astr "v1"]⟩]

/-- Claim C2 as stated: in every reachable state with a rehash in
progress, every live key resides in exactly one of the two tables. -/
def claimC2 : Prop :=
  ∀ (hash : String → Nat) (reqs : List DBRequest) (k : String),
    (execTrace hash reqs).t1 ≠ none →
    keyLive (execTrace hash reqs) k →
    (keyInTable (execTrace hash reqs).t0 k ↔ ¬ keyInOpt (execTrace hash reqs).t1 k)

/-- Claim C3 as stated: after every executed command sequence, each key
occurs in at most one entry across the two tables. -/
def claimC3 : Prop :=
  ∀ (hash : String → Nat) (reqs : List DBRequest) (k : String),
    countKey (execTrace hash reqs) k ≤ 1

/-! ## Generic list lemmas (slot arrays) -/

theorem getD_set_self {α} (l : List α) (i : Nat) (x d : α) (h : i < l.length) :
    (l.set i x).getD i d = x := by
  induction l generalizing i with
  | nil => simp at h
  | cons hd tl ih =>
    cases i with
    | zero => simp [List.set, List.getD]
    | succ j =>
      simp only [List.set, List.getD_cons_succ]
      exact ih j (by simpa using h)

theorem getD_set_ne {α} (l : List α) (i j : Nat) (x d : α) (h : i ≠ j) :
    (l.set i x).getD j d = l.getD j d := by
  induction l generalizing i j with
  | nil => simp [List.set]
  | cons hd tl ih =>
    cases i with
    | zero =>
      cases j with
      | zero => exact absurd rfl h
      | succ j2 => simp [List.set]
    | succ i2 =>
      cases j with
      | zero => simp [List.set]
      | succ j2 =>
        simp only [List.set, List.getD_cons_succ]
        exact ih i2 j2 (fun hh => h (by rw [hh]))

theorem set_getD_self {α} (l : List α) (i : Nat) (d : α) (h : i < l.length) :
    l.set i (l.getD i d) = l := by
  induction l generalizing i with
  | nil => simp at h
  | cons hd tl ih =>
    cases i with
    | zero => simp [List.set, List.getD]
    | succ j =>
      simp only [List.getD_cons_succ, List.set]
      rw [ih j (by simpa using h)]

theorem flatten_set_perm {α} (l : List (List α)) (i : Nat) (x : List α) (h : i < l.length) :
    ((l.set i x).flatten).Perm (x ++ (l.set i []).flatten) := by
  induction l generalizing i with
  | nil => simp at h
  | cons hd tl ih =>
    cases i with
    | zero => simp [List.set]
    | succ j =>
      simp only [List.set, List.flatten_cons]
      have h1 : (hd ++ (tl.set j x).flatten).Perm (hd ++ (x ++ (tl.set j []).flatten)) :=
        (ih j (by simpa using h)).append_left hd
      apply h1.trans
      rw [← List.append_assoc, ← List.append_assoc]
      exact (List.perm_append_comm).append_right _

theorem flatten_decomp {α} (l : List (List α)) (i : Nat) (h : i < l.length) :
    (l.flatten).Perm (l.getD i [] ++ (l.set i []).flatten) := by
  have := flatten_set_perm l i (l.getD i []) h
  rwa [set_getD_self l i [] h] at this

theorem flatten_set_cons_perm {α} (l : List (List α)) (i : Nat) (e : α) (h : i < l.length) :
    ((l.set i (e :: l.getD i [])).flatten).Perm (e :: l.flatten) := by
  have h1 := flatten_set_perm l i (e :: l.getD i []) h
  apply h1.trans
  show (e :: (l.getD i [] ++ (l.set i []).flatten)).Perm (e :: l.flatten)
  exact (flatten_decomp l i h).symm.cons e

theorem mem_flatten_getD {α} (l : List (List α)) (e : α) :
    e ∈ l.flatten ↔ ∃ i, i < l.length ∧ e ∈ l.getD i [] := by
  induction l with
  | nil => simp
  | cons hd tl ih =>
    simp only [List.flatten_cons, List.mem_append, ih]
    constructor
    · rintro (h | ⟨i, hi, hmem⟩)
      · exact ⟨0, by simp, by simpa using h⟩
      · exact ⟨i + 1, by simpa using hi, by simpa using hmem⟩
    · rintro ⟨i, hi, hmem⟩
      cases i with
      | zero => exact Or.inl (by simpa using hmem)
      | succ j => exact Or.inr ⟨j, by simpa using hi, by simpa using hmem⟩

/-! ## Collision-chain lemmas -/

theorem chainFind_eq_some {k : String} {ch : List HTEntry} {e : HTEntry}
    (h : chainFind k ch = some e) : e ∈ ch ∧ e.key = k := by
  induction ch with
  | nil => simp [chainFind] at h
  | cons hd tl ih =>
    by_cases hk : hd.key = k
    · simp [chainFind, hk] at h
      subst h
      exact ⟨List.mem_cons_self hd tl, hk⟩
    · simp [chainFind, hk] at h
      obtain ⟨hmem, hkey⟩ := ih h
      exact ⟨List.mem_cons_of_mem hd hmem, hkey⟩

theorem chainFind_eq_none {k : String} {ch : List HTEntry} :
    chainFind k ch = none ↔ ∀ e ∈ ch, e.key ≠ k := by
  induction ch with
  | nil => simp [chainFind]
  | cons hd tl ih =>
    by_cases hk : hd.key = k
    · simp only [chainFind, if_pos hk]
      constructor
      · intro h; cases h
      · intro h; exact absurd hk (h hd (List.mem_cons_self hd tl))
    · simp only [chainFind, if_neg hk, ih]
      constructor
      · intro h e hmem
        rcases List.mem_cons.mp hmem with rfl | hmem2
        · exact hk
        · exact h e hmem2
      · intro h e hmem
        exact h e (List.mem_cons_of_mem hd hmem)

theorem chainFind_cons_ne {k : String} {e : HTEntry} {ch : List HTEntry}
    (h : e.key ≠ k) : chainFind k (e :: ch) = chainFind k ch := by
  simp [chainFind, h]

theorem chainFind_of_mem_nodup {k : String} {ch : List HTEntry} {e : HTEntry}
    (hnd : (ch.map HTEntry.key).Nodup) (hmem : e ∈ ch) (hkey : e.key = k) :
    chainFind k ch = some e := by
  induction ch with
  | nil => simp at hmem
  | cons hd tl ih =>
    rcases List.mem_cons.mp hmem with rfl | hmem2
    · simp [chainFind, hkey]
    · have hk2 : k ∈ tl.map HTEntry.key := by
        rw [← hkey]; exact List.mem_map_of_mem HTEntry.key hmem2
      have hne : hd.key ≠ k := fun hh =>
        (List.nodup_cons.mp hnd).1 (by rw [hh]; exact hk2)
      rw [chainFind_cons_ne hne]
      exact ih (List.nodup_cons.mp hnd).2 hmem2

theorem chainRemoveFirst_fst {k : String} (ch : List HTEntry) :
    (chainRemoveFirst k ch).1 = chainFind k ch := by
  induction ch with
  | nil => simp [chainRemoveFirst, chainFind]
  | cons hd tl ih =>
    by_cases hk : hd.key = k
    · simp [chainRemoveFirst, chainFind, hk]
    · simp [chainRemoveFirst, chainFind, hk, ih]

theorem chainRemoveFirst_none {k : String} {ch : List HTEntry}
    (h : chainFind k ch = none) : (chainRemoveFirst k ch).2 = ch := by
  induction ch with
  | nil => simp [chainRemoveFirst]
  | cons hd tl ih =>
    by_cases hk : hd.key = k
    · simp [chainFind, hk] at h
    · rw [chainFind_cons_ne hk] at h
      simp [chainRemoveFirst, hk, ih h]

theorem chainRemoveFirst_perm {k : String} {ch : List HTEntry} {e : HTEntry}
    (h : chainFind k ch = some e) : ch.Perm (e :: (chainRemoveFirst k ch).2) := by
  induction ch with
  | nil => simp [chainFind] at h
  | cons hd tl ih =>
    by_cases hk : hd.key = k
    · simp [chainFind, hk] at h
      subst h
      simp [chainRemoveFirst, hk]
    · rw [chainFind_cons_ne hk] at h
      simp only [chainRemoveFirst, hk, if_false]
      exact ((ih h).cons hd).trans (List.Perm.swap e hd _)

theorem chainRemoveFirst_subset {k : String} {ch : List HTEntry} :
    ∀ x ∈ (chainRemoveFirst k ch).2, x ∈ ch := by
  induction ch with
  | nil => simp [chainRemoveFirst]
  | cons hd tl ih =>
    by_cases hk : hd.key = k
    · simp only [chainRemoveFirst, hk, if_true]
      exact fun x hx => List.mem_cons_of_mem hd hx
    · simp only [chainRemoveFirst, hk, if_false]
      intro x hx
      rcases List.mem_cons.mp hx with rfl | hx2
      · exact List.mem_cons_self x tl
      · exact List.mem_cons_of_mem hd (ih x hx2)

theorem chainUpdateFirst_map_key {k : String} {f : HTEntry → HTEntry}
    (hf : ∀ e, (f e).key = e.key) (ch : List HTEntry) :
    (chainUpdateFirst k f ch).map HTEntry.key = ch.map HTEntry.key := by
  induction ch with
  | nil => simp [chainUpdateFirst]
  | cons hd tl ih =>
    by_cases hk : hd.key = k
    · simp [chainUpdateFirst, hk, hf]
    · simp [chainUpdateFirst, hk, ih]

theorem chainFind_chainUpdateFirst_self {k : String} {f : HTEntry → HTEntry}
    (hf : ∀ e, (f e).key = e.key) (ch : List HTEntry) :
    chainFind k (chainUpdateFirst k f ch) = (chainFind k ch).map f := by
  induction ch with
  | nil => simp [chainUpdateFirst, chainFind]
  | cons hd tl ih =>
    by_cases hk : hd.key = k
    · simp [chainUpdateFirst, chainFind, hk, hf]
    · simp [chainUpdateFirst, chainFind, hk, hf, ih]

theorem chainFind_chainUpdateFirst_ne {k k2 : String} {f : HTEntry → HTEntry}
    (hf : ∀ e, (f e).key = e.key) (hne : k2 ≠ k) (ch : List HTEntry) :
    chainFind k2 (chainUpdateFirst k f ch) = chainFind k2 ch := by
  induction ch with
  | nil => simp [chainUpdateFirst]
  | cons hd tl ih =>
    by_cases hk : hd.key = k
    · rw [show chainUpdateFirst k f (hd :: tl) = f hd :: tl from by
        simp [chainUpdateFirst, hk]]
      rw [chainFind_cons_ne (show (f hd).key ≠ k2 from by
        rw [hf, hk]; exact fun hh => hne hh.symm)]
      rw [chainFind_cons_ne (show hd.key ≠ k2 from by
        rw [hk]; exact fun hh => hne hh.symm)]
    · rw [show chainUpdateFirst k f (hd :: tl) = hd :: chainUpdateFirst k f tl from by
        simp [chainUpdateFirst, hk]]
      by_cases hk2 : hd.key = k2
      · simp [chainFind, hk2]
      · rw [chainFind_cons_ne hk2, chainFind_cons_ne hk2, ih]

theorem chainUpdateFirst_nil {k : String} {f : HTEntry → HTEntry} :
    chainUpdateFirst k f [] = [] := rfl

theorem chainUpdateFirst_subset_or {k : String} {f : HTEntry → HTEntry} {ch : List HTEntry} :
    ∀ x ∈ chainUpdateFirst k f ch, x ∈ ch ∨ ∃ e ∈ ch, x = f e := by
  induction ch with
  | nil => simp [chainUpdateFirst]
  | cons hd tl ih =>
    by_cases hk : hd.key = k
    · simp only [chainUpdateFirst, hk, if_true]
      intro x hx
      rcases List.mem_cons.mp hx with rfl | hx2
      · exact Or.inr ⟨hd, List.mem_cons_self hd tl, rfl⟩
      · exact Or.inl (List.mem_cons_of_mem hd hx2)
    · simp only [chainUpdateFirst, hk, if_false]
      intro x hx
      rcases List.mem_cons.mp hx with rfl | hx2
      · exact Or.inl (List.mem_cons_self x tl)
      · rcases ih x hx2 with h1 | ⟨e, he, hfe⟩
        · exact Or.inl (List.mem_cons_of_mem hd h1)
        · exact Or.inr ⟨e, List.mem_cons_of_mem hd he, hfe⟩

/-! ## Probe lemmas: `get_entry` against `add_entry`, `updateFirst`, `remove_entry` -/

theorem t1_shape_of_TablesOk {s : DB} {t1 : HashTable} (hs : TablesOk s)
    (h1 : s.t1 = some t1) : tableShape t1 := by
  have h2 := hs.2
  unfold rehashOk at h2
  rw [h1] at h2
  exact h2.1

/-- After an `add_entry`, the new entry is what `get_entry` finds for
its key. -/
theorem get_entry_add_self (hash : String → Nat) {s : DB} (e : HTEntry)
    (hs : TablesOk s) : get_entry hash (add_entry hash s e) e.key = some e := by
  match h1 : s.t1 with
  | some t1 =>
    have hsh := t1_shape_of_TablesOk hs h1
    have hlt : hash e.key % t1.size < t1.entries.length := by
      rw [hsh.2]; exact Nat.mod_lt _ hsh.1
    simp only [add_entry, get_entry, h1, tablePrepend, bucketIdx, bucketGet]
    rw [getD_set_self _ _ _ _ hlt]
    simp [chainFind]
  | none =>
    have hlt : hash e.key % s.t0.size < s.t0.entries.length := by
      rw [hs.1.2]; exact Nat.mod_lt _ hs.1.1
    simp only [add_entry, get_entry, h1, tablePrepend, bucketIdx, bucketGet]
    rw [getD_set_self _ _ _ _ hlt]
    simp [chainFind]

/-- An `add_entry` leaves lookups of every other key unchanged. -/
theorem get_entry_add_ne (hash : String → Nat) {s : DB} (e : HTEntry) (k : String)
    (hs : TablesOk s) (hne : e.key ≠ k) :
    get_entry hash (add_entry hash s e) k = get_entry hash s k := by
  match h1 : s.t1 with
  | some t1 =>
    have hsh := t1_shape_of_TablesOk hs h1
    simp only [add_entry, get_entry, h1, tablePrepend, bucketIdx, bucketGet]
    by_cases hb : hash e.key % t1.size = hash k % t1.size
    · rw [← hb]
      have hlt : hash e.key % t1.size < t1.entries.length := by
        rw [hsh.2]; exact Nat.mod_lt _ hsh.1
      rw [getD_set_self _ _ _ _ hlt, chainFind_cons_ne hne]
    · rw [getD_set_ne _ _ _ _ _ hb]
  | none =>
    simp only [add_entry, get_entry, h1, tablePrepend, bucketIdx, bucketGet]
    by_cases hb : hash e.key % s.t0.size = hash k % s.t0.size
    · rw [← hb]
      have hlt : hash e.key % s.t0.size < s.t0.entries.length := by
        rw [hs.1.2]; exact Nat.mod_lt _ hs.1.1
      rw [getD_set_self _ _ _ _ hlt, chainFind_cons_ne hne]
    · rw [getD_set_ne _ _ _ _ _ hb]

/-- `updateFirst` rewrites exactly the entry `get_entry` returns. -/
theorem get_entry_updateFirst_self (hash : String → Nat) {s : DB} (k : String)
    {f : HTEntry → HTEntry} (hf : ∀ e, (f e).key = e.key) (hs : TablesOk s) :
    get_entry hash (updateFirst hash s k f) k = (get_entry hash s k).map f := by
  match h1 : s.t1 with
  | some t1 =>
    have hsh := t1_shape_of_TablesOk hs h1
    have hlt1 : hash k % t1.size < t1.entries.length := by
      rw [hsh.2]; exact Nat.mod_lt _ hsh.1
    have hlt0 : hash k % s.t0.size < s.t0.entries.length := by
      rw [hs.1.2]; exact Nat.mod_lt _ hs.1.1
    simp only [updateFirst, h1, bucketIdx, bucketGet]
    by_cases hfound : (chainFind k (t1.entries.getD (hash k % t1.size) [])).isSome
    · rw [if_pos hfound]
      simp only [get_entry, h1, bucketIdx, bucketGet]
      rw [getD_set_self _ _ _ _ hlt1, chainFind_chainUpdateFirst_self hf]
      obtain ⟨e, he⟩ := Option.isSome_iff_exists.mp hfound
      rw [he]
      rfl
    · rw [if_neg hfound]
      simp only [get_entry, h1, bucketIdx, bucketGet]
      have hnone : chainFind k (t1.entries.getD (hash k % t1.size) []) = none :=
        Option.not_isSome_iff_eq_none.mp hfound
      rw [hnone]
      rw [getD_set_self _ _ _ _ hlt0, chainFind_chainUpdateFirst_self hf]
  | none =>
    have hlt0 : hash k % s.t0.size < s.t0.entries.length := by
      rw [hs.1.2]; exact Nat.mod_lt _ hs.1.1
    simp only [updateFirst, get_entry, h1, bucketIdx, bucketGet]
    rw [getD_set_self _ _ _ _ hlt0, chainFind_chainUpdateFirst_self hf]

/-- `updateFirst` leaves lookups of every other key unchanged. -/
theorem get_entry_updateFirst_ne (hash : String → Nat) {s : DB} (k k2 : String)
    {f : HTEntry → HTEntry} (hf : ∀ e, (f e).key = e.key) (hs : TablesOk s)
    (hne : k2 ≠ k) :
    get_entry hash (updateFirst hash s k f) k2 = get_entry hash s k2 := by
  match h1 : s.t1 with
  | some t1 =>
    have hsh := t1_shape_of_TablesOk hs h1
    simp only [updateFirst, h1, bucketIdx, bucketGet]
    by_cases hfound : (chainFind k (t1.entries.getD (hash k % t1.size) [])).isSome
    · rw [if_pos hfound]
      simp only [get_entry, h1, bucketIdx, bucketGet]
      by_cases hb : hash k % t1.size = hash k2 % t1.size
      · rw [← hb]
        have hlt : hash k % t1.size < t1.entries.length := by
          rw [hsh.2]; exact Nat.mod_lt _ hsh.1
        rw [getD_set_self _ _ _ _ hlt]
        rw [chainFind_chainUpdateFirst_ne hf hne]
      · rw [getD_set_ne _ _ _ _ _ hb]
    · rw [if_neg hfound]
      simp only [get_entry, h1, bucketIdx, bucketGet]
      by_cases hb : hash k % s.t0.size = hash k2 % s.t0.size
      · rw [← hb]
        have hlt : hash k % s.t0.size < s.t0.entries.length := by
          rw [hs.1.2]; exact Nat.mod_lt _ hs.1.1
        rw [getD_set_self _ _ _ _ hlt]
        rw [chainFind_chainUpdateFirst_ne hf hne]
      · rw [getD_set_ne _ _ _ _ _ hb]
  | none =>
    simp only [updateFirst, get_entry, h1, bucketIdx, bucketGet]
    by_cases hb : hash k % s.t0.size = hash k2 % s.t0.size
    · rw [← hb]
      have hlt : hash k % s.t0.size < s.t0.entries.length := by
        rw [hs.1.2]; exact Nat.mod_lt _ hs.1.1
      rw [getD_set_self _ _ _ _ hlt]
      rw [chainFind_chainUpdateFirst_ne hf hne]
    · rw [getD_set_ne _ _ _ _ _ hb]

/-- `remove_entry` unlinks exactly the entry `get_entry` would return
(same probe order, same chain scan). -/
theorem tableRemove_fst (hash : String → Nat) (t : HashTable) (k : String) :
    (tableRemove hash t k).1 = chainFind k (bucketGet t (bucketIdx hash t k)) := by
  simp only [tableRemove]
  rw [chainRemoveFirst_fst]
  cases chainFind k (bucketGet t (bucketIdx hash t k)) <;> rfl

theorem remove_entry_fst (hash : String → Nat) (s : DB) (k : String) :
    (remove_entry hash s k).1 = get_entry hash s k := by
  match h1 : s.t1 with
  | some t1 =>
    simp only [remove_entry, get_entry, h1]
    rw [tableRemove_fst]
    cases chainFind k (bucketGet t1 (bucketIdx hash t1 k)) with
    | some e => rfl
    | none => simp only []; rw [tableRemove_fst]
  | none =>
    simp only [remove_entry, get_entry, h1]
    rw [tableRemove_fst]

/-! ## Invariant preservation of the index operations -/

theorem set_of_le {α} (l : List α) (i : Nat) (x : α) (h : l.length ≤ i) : l.set i x = l := by
  induction l generalizing i with
  | nil => rfl
  | cons hd tl ih =>
    cases i with
    | zero => simp at h
    | succ j => simp only [List.set]; rw [ih j (by simpa using h)]

theorem flatten_set_map_eq {α β} (g : α → β) (l : List (List α)) (i : Nat) (ch2 : List α)
    (h : i < l.length) (hm : ch2.map g = (l.getD i []).map g) :
    ((l.set i ch2).flatten).map g = (l.flatten).map g := by
  induction l generalizing i with
  | nil => simp at h
  | cons hd tl ih =>
    cases i with
    | zero =>
      simp only [List.set, List.flatten_cons, List.map_append]
      rw [hm]; rfl
    | succ j =>
      simp only [List.set, List.flatten_cons, List.map_append]
      rw [ih j (by simpa using h) (by simpa using hm)]

/-- Replacing one bucket with entries that all hash there keeps the
table bucket-consistent. -/
theorem tableBucketed_set (hash : String → Nat) {t : HashTable} {i : Nat}
    {ch2 : List HTEntry} (hb : tableBucketed hash t)
    (hch : ∀ x ∈ ch2, hash x.key % t.size = i) :
    tableBucketed hash { t with entries := t.entries.set i ch2 } := by
  intro j hj e he
  simp only [List.length_set] at hj
  by_cases hij : i = j
  · subst hij
    by_cases hlen : i < t.entries.length
    · rw [getD_set_self _ _ _ _ hlen] at he
      exact hch e he
    · rw [set_of_le _ _ _ (Nat.le_of_not_lt hlen)] at he
      exact hb i hj e he
  · rw [getD_set_ne _ _ _ _ _ hij] at he
    exact hb j hj e he

theorem tablePrepend_size (hash : String → Nat) (t : HashTable) (e : HTEntry) :
    (tablePrepend hash t e).size = t.size := rfl

theorem tablePrepend_length (hash : String → Nat) (t : HashTable) (e : HTEntry) :
    (tablePrepend hash t e).entries.length = t.entries.length := by
  simp [tablePrepend]

theorem tablePrepend_shape (hash : String → Nat) {t : HashTable} (e : HTEntry)
    (hs : tableShape t) : tableShape (tablePrepend hash t e) := by
  exact ⟨hs.1, by rw [tablePrepend_length, tablePrepend_size]; exact hs.2⟩

theorem tablePrepend_bucketed (hash : String → Nat) {t : HashTable} (e : HTEntry)
    (hs : tableShape t) (hb : tableBucketed hash t) :
    tableBucketed hash (tablePrepend hash t e) := by
  simp only [tablePrepend, bucketIdx, bucketGet]
  exact tableBucketed_set hash hb (by
    intro x hx
    rcases List.mem_cons.mp hx with rfl | hx2
    · rfl
    · have hlt : hash e.key % t.size < t.entries.length := by
        rw [hs.2]; exact Nat.mod_lt _ hs.1
      exact hb _ hlt x hx2)

theorem tablePrepend_flatten_perm (hash : String → Nat) {t : HashTable} (e : HTEntry)
    (hs : tableShape t) :
    ((tablePrepend hash t e).entries.flatten).Perm (e :: t.entries.flatten) := by
  simp only [tablePrepend, bucketIdx, bucketGet]
  have hlt : hash e.key % t.size < t.entries.length := by
    rw [hs.2]; exact Nat.mod_lt _ hs.1
  exact flatten_set_cons_perm t.entries _ e hlt

theorem add_entry_TablesOk (hash : String → Nat) {s : DB} (e : HTEntry)
    (hs : TablesOk s) : TablesOk (add_entry hash s e) := by
  match h1 : s.t1 with
  | some t1 =>
    have h2 := hs.2
    unfold rehashOk at h2
    rw [h1] at h2
    simp only [add_entry, h1]
    refine ⟨hs.1, ?_⟩
    unfold rehashOk
    simp only []
    exact ⟨tablePrepend_shape hash e h2.1, h2.2.1, h2.2.2.1, h2.2.2.2⟩
  | none =>
    simp only [add_entry, h1]
    refine ⟨tablePrepend_shape hash e hs.1, ?_⟩
    unfold rehashOk
    simp only []

theorem add_entry_Bucketed (hash : String → Nat) {s : DB} (e : HTEntry)
    (hs : TablesOk s) (hb : Bucketed hash s) : Bucketed hash (add_entry hash s e) := by
  match h1 : s.t1 with
  | some t1 =>
    have h2 := hs.2
    unfold rehashOk at h2
    rw [h1] at h2
    have hb2 := hb
    unfold Bucketed at hb2
    rw [h1] at hb2
    simp only [add_entry, h1]
    unfold Bucketed
    exact ⟨hb2.1, tablePrepend_bucketed hash e h2.1 hb2.2⟩
  | none =>
    have hb2 := hb
    unfold Bucketed at hb2
    rw [h1] at hb2
    simp only [add_entry, h1]
    unfold Bucketed
    exact ⟨tablePrepend_bucketed hash e hs.1 hb2.1, trivial⟩

theorem add_entry_perm (hash : String → Nat) {s : DB} (e : HTEntry)
    (hs : TablesOk s) :
    (allEntriesList (add_entry hash s e)).Perm (e :: allEntriesList s) := by
  match h1 : s.t1 with
  | some t1 =>
    have h2 := hs.2
    unfold rehashOk at h2
    rw [h1] at h2
    simp only [add_entry, h1, allEntriesList, joinOpt]
    have hp := tablePrepend_flatten_perm hash e h2.1
    have := hp.append_left s.t0.entries.flatten
    exact this.trans List.perm_middle
  | none =>
    simp only [add_entry, h1, allEntriesList, joinOpt, List.append_nil]
    exact tablePrepend_flatten_perm hash e hs.1

theorem updateFirst_keysOf (hash : String → Nat) {s : DB} (k : String)
    {f : HTEntry → HTEntry} (hf : ∀ e, (f e).key = e.key) (hs : TablesOk s) :
    keysOf (updateFirst hash s k f) = keysOf s := by
  match h1 : s.t1 with
  | some t1 =>
    have hsh := t1_shape_of_TablesOk hs h1
    simp only [updateFirst, h1, bucketIdx, bucketGet]
    by_cases hfound : (chainFind k (t1.entries.getD (hash k % t1.size) [])).isSome
    · rw [if_pos hfound]
      simp only [keysOf, allEntriesList, joinOpt, h1, List.map_append]
      have hlt : hash k % t1.size < t1.entries.length := by
        rw [hsh.2]; exact Nat.mod_lt _ hsh.1
      rw [flatten_set_map_eq _ _ _ _ hlt (chainUpdateFirst_map_key hf _)]
    · rw [if_neg hfound]
      simp only [keysOf, allEntriesList, joinOpt, h1, List.map_append]
      have hlt : hash k % s.t0.size < s.t0.entries.length := by
        rw [hs.1.2]; exact Nat.mod_lt _ hs.1.1
      rw [flatten_set_map_eq _ _ _ _ hlt (chainUpdateFirst_map_key hf _)]
  | none =>
    simp only [updateFirst, h1, bucketIdx, bucketGet]
    simp only [keysOf, allEntriesList, joinOpt, h1, List.map_append]
    have hlt : hash k % s.t0.size < s.t0.entries.length := by
      rw [hs.1.2]; exact Nat.mod_lt _ hs.1.1
    rw [flatten_set_map_eq _ _ _ _ hlt (chainUpdateFirst_map_key hf _)]

theorem getD_set_nil_pres (l : List (List HTEntry)) (i j : Nat) (ch2 : List HTEntry)
    (hch : l.getD i [] = [] → ch2 = []) (hj : l.getD j [] = []) :
    (l.set i ch2).getD j [] = [] := by
  by_cases hij : i = j
  · subst hij
    by_cases hlen : i < l.length
    · rw [getD_set_self _ _ _ _ hlen]; exact hch hj
    · rw [set_of_le _ _ _ (Nat.le_of_not_lt hlen)]; exact hj
  · rw [getD_set_ne _ _ _ _ _ hij]; exact hj

/-- Updating `tables[0]` with a bucket transformation that maps empty
chains to empty chains preserves the structural invariant. -/
theorem TablesOk_set_t0 {s : DB} {i : Nat} {ch2 : List HTEntry}
    (hs : TablesOk s) (hch : s.t0.entries.getD i [] = [] → ch2 = []) :
    TablesOk { s with t0 := { s.t0 with entries := s.t0.entries.set i ch2 } } := by
  refine ⟨⟨hs.1.1, by simpa using hs.1.2⟩, ?_⟩
  have h2 := hs.2
  unfold rehashOk at h2 ⊢
  match h1 : s.t1 with
  | none => trivial
  | some t1 =>
    rw [h1] at h2
    refine ⟨h2.1, h2.2.1, h2.2.2.1, ?_⟩
    intro j hj hcur
    simp only [List.length_set] at hj
    exact getD_set_nil_pres _ _ _ _ hch (h2.2.2.2 j hj hcur)

/-- Replacing `tables[1]` with a same-size, same-length table keeps the
structural invariant. -/
theorem TablesOk_set_t1 {s : DB} {t1 t1b : HashTable}
    (hs : TablesOk s) (h1 : s.t1 = some t1)
    (hsize : t1b.size = t1.size) (hlen : t1b.entries.length = t1.entries.length) :
    TablesOk { s with t1 := some t1b } := by
  have h2 := hs.2
  unfold rehashOk at h2
  rw [h1] at h2
  refine ⟨hs.1, ?_⟩
  unfold rehashOk
  exact ⟨⟨by rw [hsize]; exact h2.1.1, by rw [hlen, hsize]; exact h2.1.2⟩,
    h2.2.1, h2.2.2.1, h2.2.2.2⟩

theorem updateFirst_TablesOk (hash : String → Nat) {s : DB} (k : String)
    (f : HTEntry → HTEntry) (hs : TablesOk s) :
    TablesOk (updateFirst hash s k f) := by
  match h1 : s.t1 with
  | some t1 =>
    simp only [updateFirst, h1, bucketIdx, bucketGet]
    by_cases hfound : (chainFind k (t1.entries.getD (hash k % t1.size) [])).isSome
    · rw [if_pos hfound]
      exact TablesOk_set_t1 hs h1 rfl (by simp)
    · rw [if_neg hfound]
      rw [show (some t1 : Option HashTable) = s.t1 from h1.symm]
      exact TablesOk_set_t0 hs (fun hnil => by rw [hnil]; rfl)
  | none =>
    simp only [updateFirst, h1, bucketIdx, bucketGet]
    rw [show (none : Option HashTable) = s.t1 from h1.symm]
    exact TablesOk_set_t0 hs (fun hnil => by rw [hnil]; rfl)

theorem updateFirst_Bucketed (hash : String → Nat) {s : DB} (k : String)
    {f : HTEntry → HTEntry} (hf : ∀ e, (f e).key = e.key)
    (hs : TablesOk s) (hb : Bucketed hash s) :
    Bucketed hash (updateFirst hash s k f) := by
  have hmem : ∀ (t : HashTable), tableShape t → tableBucketed hash t →
      ∀ i, i = hash k % t.size →
      ∀ x ∈ chainUpdateFirst k f (t.entries.getD i []), hash x.key % t.size = i := by
    intro t hsh htb i hi x hx
    have hlt : i < t.entries.length := by
      rw [hi, hsh.2]; exact Nat.mod_lt _ hsh.1
    rcases chainUpdateFirst_subset_or x hx with h1 | ⟨e, he, rfl⟩
    · exact htb i hlt x h1
    · rw [hf]; exact htb i hlt e he
  match h1 : s.t1 with
  | some t1 =>
    have hsh := t1_shape_of_TablesOk hs h1
    have hb2 := hb
    unfold Bucketed at hb2
    rw [h1] at hb2
    simp only [updateFirst, h1, bucketIdx, bucketGet]
    by_cases hfound : (chainFind k (t1.entries.getD (hash k % t1.size) [])).isSome
    · rw [if_pos hfound]
      unfold Bucketed
      exact ⟨hb2.1, tableBucketed_set hash hb2.2 (hmem t1 hsh hb2.2 _ rfl)⟩
    · rw [if_neg hfound]
      unfold Bucketed
      simp only []
      exact ⟨tableBucketed_set hash hb2.1 (hmem s.t0 hs.1 hb2.1 _ rfl), hb2.2⟩
  | none =>
    have hb2 := hb
    unfold Bucketed at hb2
    rw [h1] at hb2
    simp only [updateFirst, h1, bucketIdx, bucketGet]
    unfold Bucketed
    simp only []
    exact ⟨tableBucketed_set hash hb2.1 (hmem s.t0 hs.1 hb2.1 _ rfl), hb2.2⟩

theorem updateFirst_WFS (hash : String → Nat) {s : DB} (k : String)
    {f : HTEntry → HTEntry} (hf : ∀ e, (f e).key = e.key) (hW : WFS hash s) :
    WFS hash (updateFirst hash s k f) := by
  refine ⟨updateFirst_TablesOk hash k f hW.1, updateFirst_Bucketed hash k hf hW.1 hW.2.1, ?_⟩
  unfold KeysNodup
  rw [updateFirst_keysOf hash k hf hW.1]
  exact hW.2.2

theorem tableRemove_some_perm (hash : String → Nat) {t : HashTable} {k : String}
    {e : HTEntry} (hs : tableShape t)
    (h : (tableRemove hash t k).1 = some e) :
    (t.entries.flatten).Perm (e :: ((tableRemove hash t k).2.entries.flatten)) := by
  rw [tableRemove_fst] at h
  have hlt : bucketIdx hash t k < t.entries.length := by
    rw [hs.2]; exact Nat.mod_lt _ hs.1
  have hcp := chainRemoveFirst_perm h
  have hd := flatten_decomp t.entries (bucketIdx hash t k) hlt
  simp only [tableRemove, bucketGet] at *
  rw [chainRemoveFirst_fst, h]
  simp only []
  have hset := flatten_set_perm t.entries (bucketIdx hash t k)
    (chainRemoveFirst k (t.entries.getD (bucketIdx hash t k) [])).2 hlt
  apply hd.trans
  apply ((hcp.append_right _).trans (by exact List.Perm.refl _)).trans
  show ((e :: (chainRemoveFirst k (t.entries.getD (bucketIdx hash t k) [])).2) ++
      (t.entries.set (bucketIdx hash t k) []).flatten).Perm _
  exact (hset.symm.cons e)

theorem tableRemove_shape (hash : String → Nat) {t : HashTable} (k : String)
    (hs : tableShape t) : tableShape (tableRemove hash t k).2 := by
  simp only [tableRemove]
  cases (chainRemoveFirst k (bucketGet t (bucketIdx hash t k))).1 with
  | some e => exact ⟨hs.1, by simpa using hs.2⟩
  | none => exact hs

theorem tableRemove_bucketed (hash : String → Nat) {t : HashTable} (k : String)
    (hs : tableShape t) (hb : tableBucketed hash t) :
    tableBucketed hash (tableRemove hash t k).2 := by
  simp only [tableRemove]
  cases (chainRemoveFirst k (bucketGet t (bucketIdx hash t k))).1 with
  | some e =>
    simp only []
    apply tableBucketed_set hash hb
    intro x hx
    have hlt : bucketIdx hash t k < t.entries.length := by
      rw [hs.2]; exact Nat.mod_lt _ hs.1
    exact hb _ hlt x (chainRemoveFirst_subset x hx)
  | none => exact hb

theorem tableRemove_size (hash : String → Nat) (t : HashTable) (k : String) :
    (tableRemove hash t k).2.size = t.size := by
  simp only [tableRemove]
  cases (chainRemoveFirst k (bucketGet t (bucketIdx hash t k))).1 <;> rfl

theorem tableRemove_length (hash : String → Nat) (t : HashTable) (k : String) :
    (tableRemove hash t k).2.entries.length = t.entries.length := by
  simp only [tableRemove]
  cases (chainRemoveFirst k (bucketGet t (bucketIdx hash t k))).1 <;> simp

theorem tableRemove_nil_pres (hash : String → Nat) (t : HashTable) (k : String)
    (j : Nat) (hj : t.entries.getD j [] = []) :
    (tableRemove hash t k).2.entries.getD j [] = [] := by
  simp only [tableRemove]
  cases (chainRemoveFirst k (bucketGet t (bucketIdx hash t k))).1 with
  | some e =>
    simp only []
    apply getD_set_nil_pres _ _ _ _ _ hj
    intro hnil
    simp only [bucketGet] at hnil ⊢
    rw [hnil]
    rfl
  | none => exact hj

/-- Rebuilding `tables[0]` with the same geometry, preserving cleared
slots, keeps the structural invariant. -/
theorem TablesOk_mk_t0 {s : DB} {t0b : HashTable} (hs : TablesOk s)
    (hsize : t0b.size = s.t0.size) (hlen : t0b.entries.length = s.t0.entries.length)
    (hnil : ∀ j, s.t0.entries.getD j [] = [] → t0b.entries.getD j [] = []) :
    TablesOk { s with t0 := t0b } := by
  refine ⟨⟨by rw [hsize]; exact hs.1.1, by rw [hlen, hsize]; exact hs.1.2⟩, ?_⟩
  have h2 := hs.2
  unfold rehashOk at h2 ⊢
  match h1 : s.t1 with
  | none => trivial
  | some t1 =>
    rw [h1] at h2
    refine ⟨h2.1, h2.2.1, by rw [hsize]; exact h2.2.2.1, ?_⟩
    intro j hj hcur
    rw [hlen] at hj
    exact hnil j (h2.2.2.2 j hj hcur)

theorem tableRemove_eq_some (hash : String → Nat) {t : HashTable} {k : String}
    {e : HTEntry} (h2 : chainFind k (bucketGet t (bucketIdx hash t k)) = some e) :
    tableRemove hash t k = (some e,
      ⟨t.size, t.count - 1,
        t.entries.set (bucketIdx hash t k)
          (chainRemoveFirst k (bucketGet t (bucketIdx hash t k))).2⟩) := by
  simp only [tableRemove]
  rw [chainRemoveFirst_fst, h2]

theorem tableRemove_eq_none (hash : String → Nat) {t : HashTable} {k : String}
    (h2 : chainFind k (bucketGet t (bucketIdx hash t k)) = none) :
    tableRemove hash t k = (none, t) := by
  simp only [tableRemove]
  rw [chainRemoveFirst_fst, h2]

theorem remove_entry_eq_t1_some (hash : String → Nat) {s : DB} {t1 : HashTable}
    {k : String} {e : HTEntry} (h1 : s.t1 = some t1)
    (h2 : (tableRemove hash t1 k).1 = some e) :
    remove_entry hash s k = (some e, { s with t1 := some (tableRemove hash t1 k).2 }) := by
  simp only [remove_entry, h1]
  rw [h2]

theorem remove_entry_eq_t1_none (hash : String → Nat) {s : DB} {t1 : HashTable}
    {k : String} (h1 : s.t1 = some t1)
    (h2 : (tableRemove hash t1 k).1 = none) :
    remove_entry hash s k =
      ((tableRemove hash s.t0 k).1, { s with t0 := (tableRemove hash s.t0 k).2 }) := by
  simp only [remove_entry, h1]
  rw [h2]

theorem remove_entry_eq_t0 (hash : String → Nat) {s : DB} {k : String}
    (h1 : s.t1 = none) :
    remove_entry hash s k =
      ((tableRemove hash s.t0 k).1, { s with t0 := (tableRemove hash s.t0 k).2 }) := by
  simp only [remove_entry, h1]

theorem remove_entry_TablesOk (hash : String → Nat) {s : DB} (k : String)
    (hs : TablesOk s) : TablesOk (remove_entry hash s k).2 := by
  match h1 : s.t1 with
  | some t1 =>
    match h2 : (tableRemove hash t1 k).1 with
    | some e =>
      rw [remove_entry_eq_t1_some hash h1 h2]
      exact TablesOk_set_t1 hs h1 (tableRemove_size hash t1 k) (tableRemove_length hash t1 k)
    | none =>
      rw [remove_entry_eq_t1_none hash h1 h2]
      exact TablesOk_mk_t0 hs (tableRemove_size hash s.t0 k) (tableRemove_length hash s.t0 k)
        (tableRemove_nil_pres hash s.t0 k)
  | none =>
    rw [remove_entry_eq_t0 hash h1]
    exact TablesOk_mk_t0 hs (tableRemove_size hash s.t0 k) (tableRemove_length hash s.t0 k)
      (tableRemove_nil_pres hash s.t0 k)

theorem remove_entry_Bucketed (hash : String → Nat) {s : DB} (k : String)
    (hs : TablesOk s) (hb : Bucketed hash s) : Bucketed hash (remove_entry hash s k).2 := by
  match h1 : s.t1 with
  | some t1 =>
    have hb2 := hb
    unfold Bucketed at hb2
    rw [h1] at hb2
    match h2 : (tableRemove hash t1 k).1 with
    | some e =>
      rw [remove_entry_eq_t1_some hash h1 h2]
      unfold Bucketed
      exact ⟨hb2.1, tableRemove_bucketed hash k (t1_shape_of_TablesOk hs h1) hb2.2⟩
    | none =>
      rw [remove_entry_eq_t1_none hash h1 h2]
      unfold Bucketed
      simp only [h1]
      exact ⟨tableRemove_bucketed hash k hs.1 hb2.1, hb2.2⟩
  | none =>
    have hb2 := hb
    unfold Bucketed at hb2
    rw [h1] at hb2
    rw [remove_entry_eq_t0 hash h1]
    unfold Bucketed
    simp only [h1]
    exact ⟨tableRemove_bucketed hash k hs.1 hb2.1, trivial⟩

theorem remove_entry_some_perm (hash : String → Nat) {s : DB} {k : String}
    {e : HTEntry} (hs : TablesOk s) (h : (remove_entry hash s k).1 = some e) :
    (allEntriesList s).Perm (e :: allEntriesList (remove_entry hash s k).2) := by
  match h1 : s.t1 with
  | some t1 =>
    match h2 : (tableRemove hash t1 k).1 with
    | some e2 =>
      rw [remove_entry_eq_t1_some hash h1 h2] at h ⊢
      obtain rfl : e2 = e := by simpa using h
      have hp := tableRemove_some_perm hash (t1_shape_of_TablesOk hs h1) h2
      simp only [allEntriesList, joinOpt, h1]
      have := hp.append_left s.t0.entries.flatten
      exact this.trans List.perm_middle
    | none =>
      rw [remove_entry_eq_t1_none hash h1 h2] at h ⊢
      have hp := tableRemove_some_perm hash hs.1 h
      simp only [allEntriesList, joinOpt, h1]
      exact hp.append_right _
  | none =>
    rw [remove_entry_eq_t0 hash h1] at h ⊢
    have hp := tableRemove_some_perm hash hs.1 h
    simp only [allEntriesList, joinOpt, h1, List.append_nil]
    exact hp

theorem flatten_nil_of_getD {α} (l : List (List α))
    (h : ∀ j < l.length, l.getD j [] = []) : l.flatten = [] := by
  induction l with
  | nil => rfl
  | cons hd tl ih =>
    have h0 : hd = [] := h 0 (by simp)
    rw [List.flatten_cons, h0]
    exact ih (fun j hj => h (j + 1) (by simpa using hj))

theorem getD_replicate_nil {α} (n i : Nat) :
    ((List.replicate n ([] : List α)).getD i []) = [] := by
  induction n generalizing i with
  | zero => cases i <;> rfl
  | succ m ih =>
    cases i with
    | zero => rfl
    | succ j => simp only [List.replicate, List.getD_cons_succ]; exact ih j

theorem flatten_replicate_nil {α} (n : Nat) :
    ((List.replicate n ([] : List α)).flatten) = [] := by
  apply flatten_nil_of_getD
  intro j hj
  exact getD_replicate_nil n j

theorem create_table_shape (m : Nat) (hm : 0 < m) : tableShape (create_table m) := by
  exact ⟨hm, by simp [create_table]⟩

theorem create_table_bucketed (hash : String → Nat) (m : Nat) :
    tableBucketed hash (create_table m) := by
  intro i hi e he
  rw [show (create_table m).entries = List.replicate m [] from rfl] at he
  rw [getD_replicate_nil] at he
  cases he

theorem moveChain_size (hash : String → Nat) (t1 : HashTable) (ch : List HTEntry) :
    (moveChain hash t1 ch).size = t1.size := by
  induction ch generalizing t1 with
  | nil => rfl
  | cons e rest ih => simpa [moveChain] using ih (tablePrepend hash t1 e)

theorem moveChain_shape (hash : String → Nat) {t1 : HashTable} (ch : List HTEntry)
    (hs : tableShape t1) : tableShape (moveChain hash t1 ch) := by
  induction ch generalizing t1 with
  | nil => exact hs
  | cons e rest ih =>
    simpa [moveChain] using ih (tablePrepend_shape hash e hs)

theorem moveChain_bucketed (hash : String → Nat) {t1 : HashTable} (ch : List HTEntry)
    (hs : tableShape t1) (hb : tableBucketed hash t1) :
    tableBucketed hash (moveChain hash t1 ch) := by
  induction ch generalizing t1 with
  | nil => exact hb
  | cons e rest ih =>
    simpa [moveChain] using
      ih (tablePrepend_shape hash e hs) (tablePrepend_bucketed hash e hs hb)

theorem moveChain_flatten_perm (hash : String → Nat) {t1 : HashTable} (ch : List HTEntry)
    (hs : tableShape t1) :
    ((moveChain hash t1 ch).entries.flatten).Perm (ch ++ t1.entries.flatten) := by
  induction ch generalizing t1 with
  | nil => simp [moveChain]
  | cons e rest ih =>
    have h1 := ih (tablePrepend_shape hash e hs)
    have h2 : (rest ++ (tablePrepend hash t1 e).entries.flatten).Perm
        (rest ++ (e :: t1.entries.flatten)) :=
      (tablePrepend_flatten_perm hash e hs).append_left rest
    have h3 : (rest ++ (e :: t1.entries.flatten)).Perm (e :: (rest ++ t1.entries.flatten)) :=
      List.perm_middle
    exact (h1.trans (h2.trans h3))

theorem rehash_step_TablesOk (hash : String → Nat) {s : DB} (hs : TablesOk s) :
    TablesOk (rehash_step hash s) := by
  match h1 : s.t1 with
  | none => simp only [rehash_step, h1]; exact hs
  | some t1 =>
    have h2 := hs.2
    unfold rehashOk at h2
    rw [h1] at h2
    obtain ⟨hsh1, h0, hlt, hclr⟩ := h2
    have htn : (s.rehashIdx.toNat : Int) = s.rehashIdx := Int.toNat_of_nonneg h0
    simp only [rehash_step, h1]
    by_cases hidx : s.rehashIdx - 1 = -1
    · rw [if_pos hidx]
      exact ⟨moveChain_shape hash _ hsh1, trivial⟩
    · rw [if_neg hidx]
      refine ⟨⟨hs.1.1, by simpa using hs.1.2⟩, ?_⟩
      unfold rehashOk
      dsimp only
      refine ⟨moveChain_shape hash _ hsh1, by omega, by omega, ?_⟩
      intro j hj hcur
      simp only [List.length_set] at hj
      by_cases hji : j = s.rehashIdx.toNat
      · subst hji
        rw [getD_set_self _ _ _ _ (by rw [hs.1.2]; omega)]
      · rw [getD_set_ne _ _ _ _ _ (fun hh => hji hh.symm)]
        exact hclr j hj (by omega)

theorem rehash_step_Bucketed (hash : String → Nat) {s : DB} (hs : TablesOk s)
    (hb : Bucketed hash s) : Bucketed hash (rehash_step hash s) := by
  match h1 : s.t1 with
  | none => simp only [rehash_step, h1]; exact hb
  | some t1 =>
    have h2 := hs.2
    unfold rehashOk at h2
    rw [h1] at h2
    obtain ⟨hsh1, h0, hlt, hclr⟩ := h2
    have hb2 := hb
    unfold Bucketed at hb2
    rw [h1] at hb2
    have hmb : tableBucketed hash (moveChain hash t1 (bucketGet s.t0 s.rehashIdx.toNat)) :=
      moveChain_bucketed hash _ hsh1 hb2.2
    simp only [rehash_step, h1]
    by_cases hidx : s.rehashIdx - 1 = -1
    · rw [if_pos hidx]
      unfold Bucketed
      exact ⟨hmb, trivial⟩
    · rw [if_neg hidx]
      unfold Bucketed
      refine ⟨?_, hmb⟩
      exact tableBucketed_set hash hb2.1 (by intro x hx; cases hx)

theorem rehash_step_perm (hash : String → Nat) {s : DB} (hs : TablesOk s) :
    (allEntriesList (rehash_step hash s)).Perm (allEntriesList s) := by
  match h1 : s.t1 with
  | none => simp only [rehash_step, h1]; exact List.Perm.refl _
  | some t1 =>
    have h2 := hs.2
    unfold rehashOk at h2
    rw [h1] at h2
    obtain ⟨hsh1, h0, hlt, hclr⟩ := h2
    have htn : (s.rehashIdx.toNat : Int) = s.rehashIdx := Int.toNat_of_nonneg h0
    have hidxlt : s.rehashIdx.toNat < s.t0.entries.length := by rw [hs.1.2]; omega
    have hmp := moveChain_flatten_perm hash (bucketGet s.t0 s.rehashIdx.toNat) hsh1
    have hdec := flatten_decomp s.t0.entries s.rehashIdx.toNat hidxlt
    simp only [rehash_step, h1]
    by_cases hidx : s.rehashIdx - 1 = -1
    · rw [if_pos hidx]
      have hz : s.rehashIdx = 0 := by omega
      have hnil : ((s.t0.entries.set s.rehashIdx.toNat []).flatten) = [] := by
        apply flatten_nil_of_getD
        intro j hj
        simp only [List.length_set] at hj
        by_cases hji : j = s.rehashIdx.toNat
        · subst hji; rw [getD_set_self _ _ _ _ hidxlt]
        · rw [getD_set_ne _ _ _ _ _ (fun hh => hji hh.symm)]
          exact hclr j hj (by omega)
      simp only [allEntriesList, joinOpt, h1, List.append_nil]
      apply hmp.trans
      have ht0 : (s.t0.entries.flatten).Perm (bucketGet s.t0 s.rehashIdx.toNat) := by
        have := hdec
        rw [hnil] at this
        simpa [bucketGet] using this
      exact (ht0.symm.append_right t1.entries.flatten)
    · rw [if_neg hidx]
      simp only [allEntriesList, joinOpt, h1]
      have hstep : ((s.t0.entries.set s.rehashIdx.toNat []).flatten ++
          (moveChain hash t1 (bucketGet s.t0 s.rehashIdx.toNat)).entries.flatten).Perm
          ((s.t0.entries.set s.rehashIdx.toNat []).flatten ++
            (bucketGet s.t0 s.rehashIdx.toNat ++ t1.entries.flatten)) :=
        hmp.append_left _
      apply hstep.trans
      have hjug : ((s.t0.entries.set s.rehashIdx.toNat []).flatten ++
          (bucketGet s.t0 s.rehashIdx.toNat ++ t1.entries.flatten)).Perm
          ((bucketGet s.t0 s.rehashIdx.toNat ++
            (s.t0.entries.set s.rehashIdx.toNat []).flatten) ++ t1.entries.flatten) := by
        rw [← List.append_assoc]
        exact (List.perm_append_comm).append_right _
      apply hjug.trans
      exact ((hdec.symm).append_right _).trans (List.Perm.refl _)

theorem maintenance_TablesOk (hash : String → Nat) {s : DB} (hs : TablesOk s) :
    TablesOk (maintenance hash s) := by
  match h1 : s.t1 with
  | some t1 => simp only [maintenance, h1]; exact rehash_step_TablesOk hash hs
  | none =>
    simp only [maintenance, h1]
    by_cases hexp : 10 * s.t0.count > 7 * s.t0.size
    · rw [if_pos hexp]
      refine ⟨hs.1, ?_⟩
      unfold rehashOk
      dsimp only
      refine ⟨create_table_shape _ (by have := hs.1.1; omega), by have := hs.1.1; omega,
        by have := hs.1.1; omega, ?_⟩
      intro j hj hcur
      rw [hs.1.2] at hj
      omega
    · rw [if_neg hexp]
      by_cases hshr : 16 < s.t0.size ∧ 10 * s.t0.count < s.t0.size
      · rw [if_pos hshr]
        refine ⟨hs.1, ?_⟩
        unfold rehashOk
        dsimp only
        refine ⟨create_table_shape _ (by omega), by have := hs.1.1; omega,
          by have := hs.1.1; omega, ?_⟩
        intro j hj hcur
        rw [hs.1.2] at hj
        omega
      · rw [if_neg hshr]
        exact hs

theorem maintenance_Bucketed (hash : String → Nat) {s : DB} (hs : TablesOk s)
    (hb : Bucketed hash s) : Bucketed hash (maintenance hash s) := by
  match h1 : s.t1 with
  | some t1 => simp only [maintenance, h1]; exact rehash_step_Bucketed hash hs hb
  | none =>
    have hb2 := hb
    unfold Bucketed at hb2
    rw [h1] at hb2
    simp only [maintenance, h1]
    by_cases hexp : 10 * s.t0.count > 7 * s.t0.size
    · rw [if_pos hexp]
      unfold Bucketed
      exact ⟨hb2.1, create_table_bucketed hash _⟩
    · rw [if_neg hexp]
      by_cases hshr : 16 < s.t0.size ∧ 10 * s.t0.count < s.t0.size
      · rw [if_pos hshr]
        unfold Bucketed
        exact ⟨hb2.1, create_table_bucketed hash _⟩
      · rw [if_neg hshr]
        exact hb

theorem maintenance_perm (hash : String → Nat) {s : DB} (hs : TablesOk s) :
    (allEntriesList (maintenance hash s)).Perm (allEntriesList s) := by
  match h1 : s.t1 with
  | some t1 => simp only [maintenance, h1]; exact rehash_step_perm hash hs
  | none =>
    simp only [maintenance, h1]
    by_cases hexp : 10 * s.t0.count > 7 * s.t0.size
    · rw [if_pos hexp]
      simp [allEntriesList, joinOpt, h1, create_table, flatten_replicate_nil]
    · rw [if_neg hexp]
      by_cases hshr : 16 < s.t0.size ∧ 10 * s.t0.count < s.t0.size
      · rw [if_pos hshr]
        simp [allEntriesList, joinOpt, h1, create_table, flatten_replicate_nil]
      · rw [if_neg hshr]

theorem maintenance_WFS (hash : String → Nat) {s : DB} (hW : WFS hash s) :
    WFS hash (maintenance hash s) := by
  refine ⟨maintenance_TablesOk hash hW.1, maintenance_Bucketed hash hW.1 hW.2.1, ?_⟩
  have hnd : (keysOf s).Nodup := hW.2.2
  show (keysOf (maintenance hash s)).Nodup
  unfold keysOf at hnd ⊢
  exact ((maintenance_perm hash hW.1).map (fun e => e.key)).nodup_iff.mpr hnd

theorem remove_entry_none_eq (hash : String → Nat) {s : DB} {k : String}
    (h : (remove_entry hash s k).1 = none) : (remove_entry hash s k).2 = s := by
  rw [remove_entry_fst] at h
  match h1 : s.t1 with
  | some t1 =>
    simp only [get_entry, h1] at h
    match h2 : chainFind k (bucketGet t1 (bucketIdx hash t1 k)) with
    | some e => rw [h2] at h; cases h
    | none =>
      rw [h2] at h
      simp only [] at h
      rw [remove_entry_eq_t1_none hash h1 (by rw [tableRemove_fst]; exact h2)]
      rw [tableRemove_eq_none hash h]
  | none =>
    simp only [get_entry, h1] at h
    rw [remove_entry_eq_t0 hash h1]
    rw [tableRemove_eq_none hash h]

/-! ## Resolution: under the invariant every live key is found -/

theorem table_find_of_mem (hash : String → Nat) {t : HashTable} {e : HTEntry}
    (hb : tableBucketed hash t)
    (hnd : ((t.entries.flatten).map HTEntry.key).Nodup)
    (hmem : e ∈ t.entries.flatten) :
    chainFind e.key (bucketGet t (bucketIdx hash t e.key)) = some e := by
  obtain ⟨i, hi, he⟩ := (mem_flatten_getD t.entries e).mp hmem
  have hbi : bucketIdx hash t e.key = i := hb i hi e he
  rw [hbi]
  have hperm := (flatten_decomp t.entries i hi).map HTEntry.key
  rw [List.map_append] at hperm
  have hnd2 := hperm.nodup_iff.mp hnd
  exact chainFind_of_mem_nodup (List.nodup_append.mp hnd2).1 he rfl

theorem table_find_none (hash : String → Nat) {t : HashTable} {k : String}
    (hsh : tableShape t) (hnone : ∀ x ∈ t.entries.flatten, x.key ≠ k) :
    chainFind k (bucketGet t (bucketIdx hash t k)) = none := by
  rw [chainFind_eq_none]
  intro x hx
  apply hnone
  have hlt : bucketIdx hash t k < t.entries.length := by
    rw [hsh.2]; exact Nat.mod_lt _ hsh.1
  exact (mem_flatten_getD t.entries x).mpr ⟨bucketIdx hash t k, hlt, hx⟩

theorem get_entry_resolves (hash : String → Nat) {s : DB} {e : HTEntry}
    (hW : WFS hash s) (hmem : e ∈ allEntriesList s) :
    get_entry hash s e.key = some e := by
  have hnd : ((allEntriesList s).map HTEntry.key).Nodup := hW.2.2
  match h1 : s.t1 with
  | none =>
    simp only [allEntriesList, joinOpt, h1, List.append_nil] at hmem hnd
    simp only [get_entry, h1]
    exact table_find_of_mem hash hW.2.1.1 hnd hmem
  | some t1 =>
    have hsh1 := t1_shape_of_TablesOk hW.1 h1
    have hb2 := hW.2.1
    unfold Bucketed at hb2
    rw [h1] at hb2
    simp only [allEntriesList, joinOpt, h1, List.map_append] at hmem hnd
    have hnds := List.nodup_append.mp hnd
    simp only [get_entry, h1]
    rcases List.mem_append.mp hmem with h0 | ht1
    · have hnone : chainFind e.key (bucketGet t1 (bucketIdx hash t1 e.key)) = none := by
        apply table_find_none hash hsh1
        intro x hx hxk
        exact hnds.2.2 (List.mem_map_of_mem HTEntry.key h0)
          (by rw [← hxk]; exact List.mem_map_of_mem HTEntry.key hx)
      rw [hnone]
      exact table_find_of_mem hash hb2.1 hnds.1 h0
    · rw [table_find_of_mem hash hb2.2 hnds.2.1 ht1]

/-- Under the invariant, a failed lookup means the key is dead. -/
theorem get_entry_mem (hash : String → Nat) {s : DB} {k : String} {e : HTEntry}
    (hs : TablesOk s) (h : get_entry hash s k = some e) :
    e ∈ allEntriesList s ∧ e.key = k := by
  match h1 : s.t1 with
  | none =>
    simp only [get_entry, h1] at h
    obtain ⟨hmem, hk⟩ := chainFind_eq_some h
    refine ⟨?_, hk⟩
    simp only [allEntriesList, joinOpt, h1, List.append_nil]
    have hlt : bucketIdx hash s.t0 k < s.t0.entries.length := by
      rw [hs.1.2]; exact Nat.mod_lt _ hs.1.1
    exact (mem_flatten_getD _ e).mpr ⟨_, hlt, hmem⟩
  | some t1 =>
    have hsh1 := t1_shape_of_TablesOk hs h1
    simp only [get_entry, h1] at h
    match h2 : chainFind k (bucketGet t1 (bucketIdx hash t1 k)) with
    | some e2 =>
      rw [h2] at h
      obtain rfl : e2 = e := by simpa using h
      obtain ⟨hmem, hk⟩ := chainFind_eq_some h2
      refine ⟨?_, hk⟩
      simp only [allEntriesList, joinOpt, h1]
      apply List.mem_append.mpr
      right
      have hlt : bucketIdx hash t1 k < t1.entries.length := by
        rw [hsh1.2]; exact Nat.mod_lt _ hsh1.1
      exact (mem_flatten_getD _ _).mpr ⟨_, hlt, hmem⟩
    | none =>
      rw [h2] at h
      simp only [] at h
      obtain ⟨hmem, hk⟩ := chainFind_eq_some h
      refine ⟨?_, hk⟩
      simp only [allEntriesList, joinOpt, h1]
      apply List.mem_append.mpr
      left
      have hlt : bucketIdx hash s.t0 k < s.t0.entries.length := by
        rw [hs.1.2]; exact Nat.mod_lt _ hs.1.1
      exact (mem_flatten_getD _ e).mpr ⟨_, hlt, hmem⟩

theorem get_entry_none_not_live (hash : String → Nat) {s : DB} {k : String}
    (hW : WFS hash s) (h : get_entry hash s k = none) : ¬ keyLive s k := by
  rintro ⟨e, hmem, hk⟩
  have := get_entry_resolves hash hW hmem
  rw [hk] at this
  rw [h] at this
  cases this

theorem not_live_get_entry_none (hash : String → Nat) {s : DB} {k : String}
    (hs : TablesOk s) (h : ¬ keyLive s k) : get_entry hash s k = none := by
  match h2 : get_entry hash s k with
  | none => rfl
  | some e =>
    obtain ⟨hmem, hk⟩ := get_entry_mem hash hs h2
    exact absurd ⟨e, hmem, hk⟩ h

/-! ## Command-level invariant preservation -/

theorem WFS_freshDB (hash : String → Nat) : WFS hash freshDB := by
  refine ⟨by decide, ?_, by decide⟩
  unfold Bucketed
  refine ⟨?_, trivial⟩
  intro i hi e he
  rw [show freshDB.t0.entries = List.replicate 16 [] from rfl, getD_replicate_nil] at he
  cases he

theorem WFS_add_absent (hash : String → Nat) {s : DB} {e : HTEntry}
    (hW : WFS hash s) (hnone : get_entry hash s e.key = none) :
    WFS hash (add_entry hash s e) := by
  refine ⟨add_entry_TablesOk hash e hW.1, add_entry_Bucketed hash e hW.1 hW.2.1, ?_⟩
  have hperm := (add_entry_perm hash e hW.1).map (fun x : HTEntry => x.key)
  show (keysOf (add_entry hash s e)).Nodup
  unfold keysOf
  rw [hperm.nodup_iff]
  rw [List.map_cons, List.nodup_cons]
  constructor
  · intro hmem
    apply get_entry_none_not_live hash hW hnone
    obtain ⟨x, hx, hxk⟩ := List.mem_map.mp hmem
    exact ⟨x, hx, hxk⟩
  · exact hW.2.2

theorem remove_entry_WFS (hash : String → Nat) {s : DB} (k : String)
    (hW : WFS hash s) : WFS hash (remove_entry hash s k).2 := by
  refine ⟨remove_entry_TablesOk hash k hW.1, remove_entry_Bucketed hash k hW.1 hW.2.1, ?_⟩
  match h2 : (remove_entry hash s k).1 with
  | none =>
    rw [remove_entry_none_eq hash h2]
    exact hW.2.2
  | some e =>
    have hperm := (remove_entry_some_perm hash hW.1 h2).map (fun x : HTEntry => x.key)
    show (keysOf (remove_entry hash s k).2).Nodup
    have hnd : (keysOf s).Nodup := hW.2.2
    unfold keysOf at hnd ⊢
    rw [List.map_cons] at hperm
    exact (List.nodup_cons.mp (hperm.nodup_iff.mp hnd)).2

theorem db_set_WFS (hash : String → Nat) {s : DB} (args : List DBArg)
    (hW : WFS hash s) : WFS hash (db_set hash s args).1 := by
  match args with
  | [] => exact hW
  | [a1] => exact hW
  | a1 :: a2 :: rest =>
    simp only [db_set]
    match h2 : get_entry hash s (argAsString a1) with
    | some e => exact updateFirst_WFS hash _ (fun e => rfl) hW
    | none => exact WFS_add_absent hash hW h2

theorem db_lpush_WFS (hash : String → Nat) {s : DB} (args : List DBArg)
    (hW : WFS hash s) : WFS hash (db_lpush hash s args).1 := by
  match args with
  | [] => exact hW
  | [a1] => exact hW
  | a1 :: a2 :: rest =>
    simp only [db_lpush]
    split
    · split
      · exact updateFirst_WFS hash _ (fun e => rfl) hW
      · exact hW
    · rename_i heq
      exact WFS_add_absent hash hW heq

theorem db_rpush_WFS (hash : String → Nat) {s : DB} (args : List DBArg)
    (hW : WFS hash s) : WFS hash (db_rpush hash s args).1 := by
  match args with
  | [] => exact hW
  | [a1] => exact hW
  | a1 :: a2 :: rest =>
    simp only [db_rpush]
    split
    · split
      · exact updateFirst_WFS hash _ (fun e => rfl) hW
      · exact hW
    · rename_i heq
      exact WFS_add_absent hash hW heq

theorem db_lpop_WFS (hash : String → Nat) {s : DB} (args : List DBArg)
    (hW : WFS hash s) : WFS hash (db_lpop hash s args).1 := by
  match args with
  | [] => exact hW
  | a1 :: rest =>
    simp only [db_lpop]
    match get_dllist hash s (argAsString a1) with
    | none => exact hW
    | some l => exact updateFirst_WFS hash _ (fun e => rfl) hW

theorem db_rpop_WFS (hash : String → Nat) {s : DB} (args : List DBArg)
    (hW : WFS hash s) : WFS hash (db_rpop hash s args).1 := by
  match args with
  | [] => exact hW
  | a1 :: rest =>
    simp only [db_rpop]
    match get_dllist hash s (argAsString a1) with
    | none => exact hW
    | some l => exact updateFirst_WFS hash _ (fun e => rfl) hW

theorem db_del_WFS (hash : String → Nat) {s : DB} (args : List DBArg)
    (hW : WFS hash s) : WFS hash (db_del hash s args).1 := by
  have hfold : ∀ (as2 : List DBArg) (p : DB × Nat), WFS hash p.1 →
      WFS hash (as2.foldl
        (fun (acc : DB × Nat) a =>
          let rr := remove_entry hash acc.1 (argAsString a)
          match rr.1 with
          | some _ => (rr.2, acc.2 + 1)
          | none => (rr.2, acc.2)) p).1 := by
    intro as2
    induction as2 with
    | nil => intro p hp; exact hp
    | cons a rest ih =>
      intro p hp
      apply ih
      dsimp only
      split
      · exact remove_entry_WFS hash _ hp
      · exact remove_entry_WFS hash _ hp
  match args with
  | [] => exact hW
  | a1 :: rest =>
    simp only [db_del]
    exact hfold (a1 :: rest) (s, 0) hW

/-- A live membership survives into the state a successful
`remove_entry` leaves behind, read backwards: anything live after the
removal was live before. -/
theorem keyLive_remove_entry (hash : String → Nat) {s : DB} {k k2 : String}
    (hs : TablesOk s) (h : keyLive (remove_entry hash s k).2 k2) : keyLive s k2 := by
  match h2 : (remove_entry hash s k).1 with
  | none =>
    rw [remove_entry_none_eq hash h2] at h
    exact h
  | some e =>
    have hperm := remove_entry_some_perm hash hs h2
    obtain ⟨x, hx, hxk⟩ := h
    exact ⟨x, hperm.mem_iff.mpr (List.mem_cons_of_mem e hx), hxk⟩

theorem db_rename_WFS (hash : String → Nat) {s : DB} (args : List DBArg)
    (hW : WFS hash s)
    (hsafe : ∀ a1 a2 rest, args = a1 :: a2 :: rest → ¬ keyLive s (argAsString a2)) :
    WFS hash (db_rename hash s args).1 := by
  match args with
  | [] => exact hW
  | [a1] => exact hW
  | a1 :: a2 :: rest =>
    simp only [db_rename]
    match h2 : (remove_entry hash s (argAsString a1)).1 with
    | none => exact remove_entry_WFS hash _ hW
    | some e =>
      apply WFS_add_absent hash (remove_entry_WFS hash _ hW)
      apply not_live_get_entry_none hash (remove_entry_WFS hash _ hW).1
      intro hlive
      exact hsafe a1 a2 rest rfl (keyLive_remove_entry hash hW.1 hlive)

theorem db_get_fst (hash : String → Nat) (s : DB) (args : List DBArg) :
    (db_get hash s args).1 = s := by
  match args with
  | [] => rfl
  | a1 :: rest =>
    simp only [db_get]
    split
    · split <;> rfl
    · rfl

theorem db_llen_fst (hash : String → Nat) (s : DB) (args : List DBArg) :
    (db_llen hash s args).1 = s := by
  match args with
  | [] => rfl
  | a1 :: rest =>
    simp only [db_llen]
    split <;> rfl

theorem db_lrange_fst (hash : String → Nat) (s : DB) (args : List DBArg) :
    (db_lrange hash s args).1 = s := by
  match args with
  | [] => rfl
  | a1 :: rest =>
    simp only [db_lrange]
    split <;> rfl

theorem dispatch_WFS (hash : String → Nat) {s : DB} (req : DBRequest)
    (hW : WFS hash s) (hsafe : SafeReq s req) :
    WFS hash (dispatch hash s req).1 := by
  simp only [dispatch]
  match ha : req.action with
  | .get =>
    show WFS hash (db_get hash s req.args).1
    rw [db_get_fst]
    exact hW
  | .set => exact db_set_WFS hash req.args hW
  | .rename =>
    apply db_rename_WFS hash req.args hW
    intro a1 a2 rest hargs hlive
    unfold SafeReq safeReqB at hsafe
    rw [ha, hargs] at hsafe
    simp only [Bool.not_eq_true', decide_eq_false_iff_not] at hsafe
    exact hsafe hlive
  | .del => exact db_del_WFS hash req.args hW
  | .lpush => exact db_lpush_WFS hash req.args hW
  | .lpop => exact db_lpop_WFS hash req.args hW
  | .rpush => exact db_rpush_WFS hash req.args hW
  | .rpop => exact db_rpop_WFS hash req.args hW
  | .llen =>
    show WFS hash (db_llen hash s req.args).1
    rw [db_llen_fst]
    exact hW
  | .lrange =>
    show WFS hash (db_lrange hash s req.args).1
    rw [db_lrange_fst]
    exact hW
  | .keys => exact hW
  | .flushall => exact WFS_freshDB hash
  | .infoMem => exact hW
  | .save => exact hW
  | .shutdown => exact hW
  | .start => exact hW
  | .unknown => exact hW

theorem execRequest_WFS (hash : String → Nat) {s : DB} (req : DBRequest)
    (hW : WFS hash s) (hsafe : SafeReq (maintenance hash s) req) :
    WFS hash (execRequest hash s req).1 :=
  dispatch_WFS hash req (maintenance_WFS hash hW) hsafe

/-! ## Closed forms of the pop cursor walk -/

theorem lpopAdvanceAux_spec_le (k : Nat) : ∀ (counted : Nat) (cur : List String),
    k ≤ cur.length → lpopAdvanceAux k counted cur = (counted + k + 1, cur.drop k) := by
  induction k with
  | zero => intro counted cur _; simp [lpopAdvanceAux]
  | succ m ih =>
    intro counted cur h
    cases cur with
    | nil => simp at h
    | cons hd tl =>
      simp only [lpopAdvanceAux]
      rw [ih (counted + 1) tl (by simpa using h)]
      have harith : counted + 1 + m + 1 = counted + (m + 1) + 1 := by omega
      rw [harith]
      rfl

theorem lpopAdvanceAux_spec_gt (k : Nat) : ∀ (counted : Nat) (cur : List String),
    cur.length < k → lpopAdvanceAux k counted cur = (counted + cur.length + 1, []) := by
  induction k with
  | zero => intro counted cur h; simp at h
  | succ m ih =>
    intro counted cur h
    cases cur with
    | nil => simp [lpopAdvanceAux]
    | cons hd tl =>
      simp only [lpopAdvanceAux]
      rw [ih (counted + 1) tl (by simpa using h)]
      have harith : counted + 1 + tl.length + 1 = counted + (hd :: tl).length + 1 := by
        simp; omega
      rw [harith]

/-- `db_uint_t` subtraction is plain subtraction within range. -/
theorem wsub_eq_sub (a b : Nat) (hb : b ≤ a) (ha : a < TWO64) : wsub a b = a - b := by
  unfold wsub TWO64 at *
  omega

/-- The removed suffix comes back in original forward order: after a
successful `RPOP k n` with `1 ≤ n ≤ length`, the reply list read from
its head is the last `n` elements of the stored list in their original
order (head = the element at position `length − n`, tail = the original
tail), and the remaining stored list is the prefix. -/
theorem db_rpop_core_spec (l : DLL) (count : Nat) (h1 : 1 ≤ count)
    (h2 : count ≤ l.elems.length) (hwf : dllWF l) (hlen : l.len < TWO64) :
    db_rpop_core l count =
      (⟨l.elems.take (l.elems.length - count), l.len - count⟩,
       ⟨l.elems.drop (l.elems.length - count), count⟩) := by
  have hne : l.elems ≠ [] := by
    intro hh
    rw [hh] at h2
    simp at h2
    omega
  simp only [db_rpop_core]
  rw [if_neg (by push_neg; exact ⟨by omega, hne⟩)]
  have hrevlen : l.elems.reverse.length = l.elems.length := by simp
  have hw : lpopAdvance count 0 l.elems.reverse = (count, l.elems.reverse.drop (count - 1)) := by
    unfold lpopAdvance
    have h00 : count - 0 - 1 = count - 1 := by omega
    rw [h00]
    rw [lpopAdvanceAux_spec_le (count - 1) 0 _ (by rw [hrevlen]; omega)]
    have : 0 + (count - 1) + 1 = count := by omega
    rw [this]
  rw [hw]
  have hw2ne : l.elems.reverse.drop (count - 1) ≠ [] := by
    intro hh
    have := congrArg List.length hh
    simp [hrevlen] at this
    omega
  rw [if_neg hw2ne]
  have hcnt : count - 1 + 1 = count := by omega
  have htail : (l.elems.reverse.drop (count - 1)).tail = l.elems.reverse.drop count := by
    rw [List.tail_drop, hcnt]
  have hsrc : (l.elems.reverse.drop (count - 1)).tail.reverse =
      l.elems.take (l.elems.length - count) := by
    rw [htail, List.drop_reverse, List.reverse_reverse]
  have hrep : (l.elems.reverse.take count).reverse =
      l.elems.drop (l.elems.length - count) := by
    rw [List.take_reverse, List.reverse_reverse]
  rw [hsrc, hrep, wsub_eq_sub l.len count (by rw [hwf]; exact h2) hlen]

/-- The symmetric fact for `LPOP`, where the code is also correct in
the in-range case: the reply is the first `n` elements in order and the
prefix is removed. -/
theorem db_lpop_core_spec (l : DLL) (count : Nat) (h1 : 1 ≤ count)
    (h2 : count ≤ l.elems.length) (hwf : dllWF l) (hlen : l.len < TWO64) :
    db_lpop_core l count =
      (⟨l.elems.drop count, l.len - count⟩, ⟨l.elems.take count, count⟩) := by
  have hne : l.elems ≠ [] := by
    intro hh
    rw [hh] at h2
    simp at h2
    omega
  simp only [db_lpop_core]
  rw [if_neg (by push_neg; exact ⟨by omega, hne⟩)]
  have hw : lpopAdvance count 0 l.elems = (count, l.elems.drop (count - 1)) := by
    unfold lpopAdvance
    have h00 : count - 0 - 1 = count - 1 := by omega
    rw [h00]
    rw [lpopAdvanceAux_spec_le (count - 1) 0 _ (by omega)]
    have : 0 + (count - 1) + 1 = count := by omega
    rw [this]
  rw [hw]
  have hw2ne : l.elems.drop (count - 1) ≠ [] := by
    intro hh
    have := congrArg List.length hh
    simp at this
    omega
  rw [if_neg hw2ne]
  have hcnt : count - 1 + 1 = count := by omega
  have htail : (l.elems.drop (count - 1)).tail = l.elems.drop count := by
    rw [List.tail_drop, hcnt]
  rw [htail, wsub_eq_sub l.len count (by rw [hwf]; exact h2) hlen]

/-! ## The snapshot round trip -/

theorem savedOf_valOfJ (v : JVal) : savedOf (valOfJ v) = v := by
  cases v <;> rfl

theorem db_load_triples (hash : String → Nat) (pairs : List (String × JVal)) :
    ∀ (s0 : DB), TablesOk s0 →
    (indexTriples (pairs.foldl
        (fun s p => add_entry hash (maintenance hash s) ⟨p.1, valOfJ p.2⟩) s0)).Perm
      (pairs ++ indexTriples s0) := by
  induction pairs with
  | nil => intro s0 _; simp
  | cons p rest ih =>
    intro s0 hs0
    have hm := maintenance_TablesOk hash hs0
    have hs1 : TablesOk (add_entry hash (maintenance hash s0) ⟨p.1, valOfJ p.2⟩) :=
      add_entry_TablesOk hash _ hm
    have hstep := ih (add_entry hash (maintenance hash s0) ⟨p.1, valOfJ p.2⟩) hs1
    simp only [List.foldl_cons]
    apply hstep.trans
    have hadd := (add_entry_perm hash ⟨p.1, valOfJ p.2⟩ hm).map
      (fun e : HTEntry => (e.key, savedOf e.val))
    have hmnt := (maintenance_perm hash hs0).map
      (fun e : HTEntry => (e.key, savedOf e.val))
    have htri : (indexTriples (add_entry hash (maintenance hash s0) ⟨p.1, valOfJ p.2⟩)).Perm
        (p :: indexTriples s0) := by
      unfold indexTriples db_save_dump
      apply hadd.trans
      rw [List.map_cons]
      simp only [savedOf_valOfJ]
      exact hmnt.cons p
    apply (htri.append_left rest).trans
    exact List.perm_middle

/-! ## Claim theorems -/

/-- C1: for every running engine, every key `k` and string value `v`,
`GET k` immediately after `SET k v` returns (a copy of) `v`, and for
every other key `k2 ≠ k` the result of `GET k2` is unchanged by the
`SET`. -/
theorem set_get_roundtrip (hash : String → Nat) (s : DB) (k v k2 : String)
    (hs : TablesOk s) (hne : k2 ≠ k) :
    (db_get hash (db_set hash s [.astr k, .astr v]).1 [.astr k]).2 = ⟨true, .vstrR v⟩ ∧
    (db_get hash (db_set hash s [.astr k, .astr v]).1 [.astr k2]).2 =
      (db_get hash s [.astr k2]).2 := by
  simp only [db_set, db_get, argAsString]
  match h2 : get_entry hash s k with
  | some e =>
    dsimp only
    constructor
    · have h3 := get_entry_updateFirst_self hash k
        (f := fun e => { e with val := .vstr v }) (fun _ => rfl) hs
      rw [h2] at h3
      rw [h3]
      rfl
    · have h4 := get_entry_updateFirst_ne hash k k2
        (f := fun e => { e with val := .vstr v }) (fun _ => rfl) hs hne
      rw [h4]
      cases h5 : get_entry hash s k2 with
      | none => rfl
      | some e2 =>
        rcases e2 with ⟨ek, ev⟩
        cases ev <;> rfl
  | none =>
    dsimp only
    constructor
    · have h3 := get_entry_add_self hash ⟨k, .vstr v⟩ hs
      rw [h3]
    · have h4 := get_entry_add_ne hash ⟨k, .vstr v⟩ k2 hs (fun hh => hne hh.symm)
      rw [h4]
      cases h5 : get_entry hash s k2 with
      | none => rfl
      | some e2 =>
        rcases e2 with ⟨ek, ev⟩
        cases ev <;> rfl

/-- Witness for C1 at a concrete instance. -/
theorem set_get_roundtrip_witness :
    (db_get hashZero (db_set hashZero freshDB [.astr "k", .astr "v"]).1 [.astr "k"]).2 =
      ⟨true, .vstrR "v"⟩ :=
  (set_get_roundtrip hashZero freshDB "k" "v" "j" (by decide) (by decide)).1

/-- C10: a command line whose first token uppercases to `START` parses
to the distinct `DB_START` action, but the worker's dispatch has no
case for it and falls through to the default branch: the reply is
`Error("ERR unknown command")` with `ok = false`, and the dataset (the
multiset of key/kind/value triples) is unchanged (only the regular
maintenance step runs). -/
theorem start_cmd_unknown_error (hash : String → Nat) (s : DB) (tok : String)
    (args : List DBArg) (hs : TablesOk s) (htok : toUpperAscii tok = "START") :
    actionOfToken tok = DbAction.start ∧
    (execRequest hash s ⟨actionOfToken tok, args⟩).2 = errReply DB_ERR_UNKNOWN_COMMAND ∧
    (indexTriples (execRequest hash s ⟨actionOfToken tok, args⟩).1).Perm (indexTriples s) := by
  have hact : actionOfToken tok = DbAction.start := by
    simp only [actionOfToken]
    rw [htok]
    decide
  refine ⟨hact, ?_, ?_⟩
  · rw [hact]
    rfl
  · rw [hact]
    show (indexTriples (maintenance hash s)).Perm (indexTriples s)
    unfold indexTriples db_save_dump
    exact (maintenance_perm hash hs).map _

/-- Witness for C10 at a concrete instance (mixed-case token). -/
theorem start_cmd_unknown_error_witness :
    (execRequest hashZero freshDB ⟨actionOfToken "StArT", []⟩).2 =
      errReply DB_ERR_UNKNOWN_COMMAND :=
  (start_cmd_unknown_error hashZero freshDB "StArT" [] (by decide) (by decide)).2.1

/-- Counterexample to C2 as stated: after twelve `SET`s (which trip the
0.7 load factor, so the maintenance tick before the 13th command
allocates the rehash table) and a `RENAME a1 k2` onto the live key
`k2`, the renamed entry is inserted into `tables[1]` while the old `k2`
entry still sits in `tables[0]`: the key `k2` resides in both tables
during the rehash. -/
theorem rehash_residence_cex : ¬ claimC2 := by
  intro h
  have h2 := h hashZero rehashDupTrace "k2" (by decide) (by decide)
  revert h2
  decide

/-- C2 (amended): provided no `RENAME` lands on a live destination key
(`db_rename` reinserts without looking the destination up, which is
exactly what the counterexample exploits), the well-formedness
invariant — both tables shaped and bucket-consistent with no duplicate
key — is preserved by every worker step (`maintenance()` followed by
the dispatched command); under that invariant every key resides in at
most one of the two tables, and every live key resolves via
`get_entry` (which probes `tables[1]` first, then `tables[0]`, by
definition). -/
theorem rehash_invariant_safe (hash : String → Nat) (s : DB) (req : DBRequest)
    (hW : WFS hash s) (hsafe : SafeReq (maintenance hash s) req) :
    WFS hash (execRequest hash s req).1 ∧
    (∀ k, ¬ (keyInTable s.t0 k ∧ keyInOpt s.t1 k)) ∧
    (∀ e, e ∈ allEntriesList s → get_entry hash s e.key = some e) := by
  refine ⟨execRequest_WFS hash req hW hsafe, ?_, fun e hmem => get_entry_resolves hash hW hmem⟩
  rintro k ⟨⟨e0, he0, hk0⟩, hin1⟩
  match h1 : s.t1 with
  | none =>
    unfold keyInOpt at hin1
    rw [h1] at hin1
    exact hin1
  | some t1 =>
    unfold keyInOpt at hin1
    rw [h1] at hin1
    obtain ⟨e1, he1, hk1⟩ := hin1
    have hnd : (keysOf s).Nodup := hW.2.2
    unfold keysOf allEntriesList joinOpt at hnd
    rw [h1] at hnd
    rw [List.map_append] at hnd
    have hd2 := List.nodup_append.mp hnd
    exact hd2.2.2 (List.mem_map.mpr ⟨e0, he0, hk0⟩) (List.mem_map.mpr ⟨e1, he1, hk1⟩)

/-- Witness for the amended C2 at a concrete instance. -/
theorem rehash_invariant_safe_witness :
    WFS hashZero (execRequest hashZero freshDB ⟨.set, [.astr "k", .astr "v"]⟩).1 :=
  (rehash_invariant_safe hashZero freshDB ⟨.set, [.astr "k", .astr "v"]⟩
    (by decide) (by decide)).1

/-- Counterexample to C3 as stated: `SET k2 v0; SET k1 v1; RENAME k1
k2` leaves two entries under `k2` — `db_rename` reinserts the renamed
entry without removing the prior `k2`. -/
theorem rename_duplicate_cex : ¬ claimC3 := by
  intro h
  have h2 := h hashZero renameDupTrace "k2"
  revert h2
  decide

/-- C3 (amended): `RENAME k1 k2` onto an existing key `k2` does not
overwrite it: starting from a duplicate-free state in which both `k1`
and `k2` are live, the rename leaves exactly two entries under `k2`;
the renamed entry (carrying `k1`'s old value) is prepended to the probe
order, so `get_entry` resolves `k2` to it, shadowing the stale
survivor. -/
theorem rename_shadowing (hash : String → Nat) (s : DB) (k1 k2 : String) (e1 : HTEntry)
    (hW : WFS hash s) (hne : k1 ≠ k2)
    (h1 : get_entry hash s k1 = some e1) (h2 : keyLive s k2) :
    countKey (db_rename hash s [.astr k1, .astr k2]).1 k2 = 2 ∧
    get_entry hash (db_rename hash s [.astr k1, .astr k2]).1 k2 = some ⟨k2, e1.val⟩ := by
  have hfst : (remove_entry hash s k1).1 = some e1 := by
    rw [remove_entry_fst]; exact h1
  have he1key : e1.key = k1 := (get_entry_mem hash hW.1 h1).2
  have hr2ok : TablesOk (remove_entry hash s k1).2 := remove_entry_TablesOk hash k1 hW.1
  simp only [db_rename, argAsString]
  rw [hfst]
  dsimp only
  constructor
  · have haddperm := (add_entry_perm hash { e1 with key := k2 } hr2ok).map
      (fun e : HTEntry => e.key)
    have hremperm := (remove_entry_some_perm hash hW.1 hfst).map
      (fun e : HTEntry => e.key)
    rw [List.map_cons] at haddperm hremperm
    unfold countKey keysOf
    rw [haddperm.count_eq k2]
    have hcs : ((keysOf s).count k2) = 1 := by
      have hmem : k2 ∈ keysOf s := by
        obtain ⟨e, he, hk⟩ := h2
        exact List.mem_map.mpr ⟨e, he, hk⟩
      exact List.nodup_iff_count_eq_one.mp hW.2.2 k2 hmem
    unfold keysOf at hcs
    rw [hremperm.count_eq k2] at hcs
    rw [List.count_cons] at hcs ⊢
    rw [he1key] at hcs
    have hb : (k1 == k2) = false := beq_eq_false_iff_ne.mpr hne
    rw [hb] at hcs
    simp at hcs ⊢
    omega
  · exact get_entry_add_self hash { e1 with key := k2 } hr2ok

/-- Witness for the amended C3 at a concrete instance. -/
theorem rename_shadowing_witness :
    countKey (db_rename hashZero preRenameState [.astr "k1", .astr "k2"]).1 "k2" = 2 :=
  (rename_shadowing hashZero preRenameState "k1" "k2" ⟨"k1", .vstr "v1"⟩
    (by decide) (by decide) (by decide) (by decide)).1

/-- C4 (the code, evaluated at the failing input): `LPOP k 2` on the
one-element list `[a]` does not clamp the count.  The cursor walk runs
off the end with `counted = 2`, so the stored list keeps its whole node
chain while `length -= 2` wraps to `2^64 - 1` (the list invariant
`length = number of reachable nodes` is destroyed), and the reply list
aliases the entire original chain while claiming 2 elements. -/
theorem lpop_overcount_bug :
    db_lpop_core ⟨["a"], 1⟩ 2 = (⟨["a"], 2 ^ 64 - 1⟩, ⟨["a"], 2⟩) ∧
    ¬ dllWF (db_lpop_core ⟨["a"], 1⟩ 2).1 ∧
    (db_lpop_core ⟨["a"], 1⟩ 2).1.elems = ["a"] := by
  refine ⟨by decide, by decide, by decide⟩

/-- Counterexample to C5 as stated: after `RPUSH list1 a b c d e f g`,
`RPOP list1 2` returns the reply list `[f, g]` read head to tail — the
removed suffix in original forward order — not the tail-first `[g, f]`
the claim requires. -/
theorem rpop_order_cex :
    (db_rpop_core ⟨["a", "b", "c", "d", "e", "f", "g"], 7⟩ 2).2.elems = ["f", "g"] ∧
    (db_rpop_core ⟨["a", "b", "c", "d", "e", "f", "g"], 7⟩ 2).2.elems ≠ ["g", "f"] := by
  refine ⟨by decide, by decide⟩

/-- C5 (amended): for every well-formed stored list and every count
`n ∈ [1, length]`, `RPOP k n` returns the removed suffix in original
forward order — reply head is the element at position `length − n`,
reply tail is the original tail — and the stored list keeps the prefix. -/
theorem rpop_forward_suffix (l : DLL) (count : Nat) (h1 : 1 ≤ count)
    (h2 : count ≤ l.elems.length) (hwf : dllWF l) (hlen : l.len < TWO64) :
    (db_rpop_core l count).2 = ⟨l.elems.drop (l.elems.length - count), count⟩ ∧
    (db_rpop_core l count).1 = ⟨l.elems.take (l.elems.length - count), l.len - count⟩ := by
  rw [db_rpop_core_spec l count h1 h2 hwf hlen]
  exact ⟨rfl, rfl⟩

/-- Witness for the amended C5 at the transcript instance. -/
theorem rpop_forward_suffix_witness :
    (db_rpop_core ⟨["a", "b", "c", "d", "e", "f", "g"], 7⟩ 2).2 = ⟨["f", "g"], 2⟩ :=
  ((rpop_forward_suffix ⟨["a", "b", "c", "d", "e", "f", "g"], 7⟩ 2
    (by decide) (by decide) (by decide) (by decide)).1).trans (by decide)

/-- C6 (the code, evaluated at the failing input): `LRANGE k 2 3` on
the one-element list `[a]` clamps `stop` to 0 but not `start`; the
traversal collects no nodes, yet the reply's stored length is computed
as `stop - start + 1 = 2^64 - 1` in `db_uint_t` arithmetic, so the
returned "empty" list carries a wildly wrong length field. -/
theorem lrange_underflow_bug :
    db_lrange_core ⟨["a"], 1⟩ 2 3 = ⟨[], 2 ^ 64 - 1⟩ ∧
    ¬ dllWF (db_lrange_core ⟨["a"], 1⟩ 2 3) := by
  refine ⟨by decide, by decide⟩

/-- Counterexample to C7 as stated: `GET` on a key holding a list does
not reply `WRONGTYPE` — it replies nil with `ok = true` (the handler
treats a kind mismatch as key-not-found). -/
theorem wrongtype_get_cex :
    (db_get hashZero listKState [.astr "k"]).2 = ⟨true, .vnull⟩ ∧
    (db_get hashZero listKState [.astr "k"]).2.ok ≠ false := by
  refine ⟨by decide, by decide⟩

/-- C7 (amended): the read verbs treat an entry of the wrong kind as
missing rather than replying `WRONGTYPE`: `GET` on a list-valued key
replies nil, and `LPOP`/`RPOP`/`LLEN`/`LRANGE` on a string-valued key
reply nil, nil, 0 and the empty list respectively, all with
`ok = true`; `WRONGTYPE` is produced only by `LPUSH`/`RPUSH` onto an
existing non-list key. -/
theorem mismatch_read_as_missing (hash : String → Nat) (s : DB) (k : String)
    (e : HTEntry) (hget : get_entry hash s k = some e) :
    (∀ l, e.val = .vlist l → (db_get hash s [.astr k]).2 = ⟨true, .vnull⟩) ∧
    (∀ v, e.val = .vstr v →
      (db_lpop hash s [.astr k]).2 = ⟨true, .vnull⟩ ∧
      (db_rpop hash s [.astr k]).2 = ⟨true, .vnull⟩ ∧
      (db_llen hash s [.astr k]).2 = ⟨true, .vuint 0⟩ ∧
      (db_lrange hash s [.astr k]).2 = ⟨true, .vlistR emptyDLL⟩ ∧
      (∀ w, (db_lpush hash s [.astr k, .astr w]).2 = errReply DB_ERR_WRONGTYPE) ∧
      (∀ w, (db_rpush hash s [.astr k, .astr w]).2 = errReply DB_ERR_WRONGTYPE)) := by
  constructor
  · intro l hl
    simp only [db_get, argAsString]
    rw [hget]
    dsimp only
    rw [hl]
  · intro v hv
    have hdl : get_dllist hash s k = none := by
      simp only [get_dllist]
      rw [hget]
      dsimp only
      rw [hv]
    refine ⟨?_, ?_, ?_, ?_, ?_, ?_⟩
    · simp only [db_lpop, argAsString]
      rw [hdl]
    · simp only [db_rpop, argAsString]
      rw [hdl]
    · simp only [db_llen, argAsString]
      rw [hdl]
    · simp only [db_lrange, argAsString]
      rw [hdl]
    · intro w
      simp only [db_lpush, argAsString]
      rw [hget]
      dsimp only
      rw [hv]
    · intro w
      simp only [db_rpush, argAsString]
      rw [hget]
      dsimp only
      rw [hv]

/-- Witness for the amended C7 at a concrete instance. -/
theorem mismatch_read_as_missing_witness :
    (db_llen hashZero strKState [.astr "k"]).2 = ⟨true, .vuint 0⟩ :=
  (((mismatch_read_as_missing hashZero strKState "k" ⟨"k", .vstr "v"⟩
    (by decide)).2 "v" rfl).2.2).1

/-- C8: for every dataset of string and list entries, `SAVE` (which
serializes both tables into the JSON snapshot object) followed by a
restart whose load loop re-inserts every member (with a maintenance
tick between inserts) yields an index holding exactly the same
multiset of (key, kind, value) triples — strings byte for byte and
lists element by element in order. -/
theorem save_load_roundtrip (hash : String → Nat) (s : DB) :
    (indexTriples (db_load hash (db_save_dump s))).Perm (indexTriples s) := by
  unfold db_load
  have h := db_load_triples hash (db_save_dump s) freshDB (by decide)
  apply h.trans
  have hfresh : indexTriples freshDB = [] := by decide
  rw [hfresh, List.append_nil]
  exact List.Perm.refl _

/-- Counterexample to C9 as stated: `LPOP k abc` on a list key does not
produce an argument error — `strtoul("abc")` silently coerces to 0 and
the command executes, returning an empty popped list with `ok = true`. -/
theorem lpop_malformed_count_cex :
    (db_lpop hashZero listKState [.astr "k", .astr "abc"]).2 = ⟨true, .vlistR emptyDLL⟩ ∧
    (db_lpop hashZero listKState [.astr "k", .astr "abc"]).2 ≠ errReply DB_ERR_ARG_ERROR := by
  refine ⟨by decide, by decide⟩

/-- C9 (amended): a count argument whose `strtoul` parse yields 0 (any
string with no leading decimal digits) is coerced to 0 rather than
rejected: `LPOP`/`RPOP` execute with count 0 and take the early return
`if (!count || !last_removed_node) return;` before the removal loop,
so nothing is removed — the reply is nil for a missing or non-list key
and the empty popped list for a list key, always with `ok = true` and
never the argument error, and the stored list under the key is
unchanged. -/
theorem malformed_count_coerces_zero (hash : String → Nat) (s : DB) (k junk : String)
    (hj : strtoulDec junk = 0) :
    (db_lpop hash s [.astr k, .astr junk]).2.ok = true ∧
    (db_rpop hash s [.astr k, .astr junk]).2.ok = true ∧
    (∀ l, get_dllist hash s k = some l →
      (db_lpop hash s [.astr k, .astr junk]).2 = ⟨true, .vlistR emptyDLL⟩ ∧
      (db_rpop hash s [.astr k, .astr junk]).2 = ⟨true, .vlistR emptyDLL⟩ ∧
      (TablesOk s →
        get_dllist hash (db_lpop hash s [.astr k, .astr junk]).1 k = some l ∧
        get_dllist hash (db_rpop hash s [.astr k, .astr junk]).1 k = some l)) := by
  refine ⟨?_, ?_, ?_⟩
  · simp only [db_lpop, arg_string_to_uint, argAsUint, argAsString]
    rw [hj]
    match get_dllist hash s k with
    | none => rfl
    | some l => rfl
  · simp only [db_rpop, arg_string_to_uint, argAsUint, argAsString]
    rw [hj]
    match get_dllist hash s k with
    | none => rfl
    | some l => rfl
  · intro l hl
    have hcoreL : db_lpop_core l 0 = (l, emptyDLL) := by
      simp [db_lpop_core]
    have hcoreR : db_rpop_core l 0 = (l, emptyDLL) := by
      simp [db_rpop_core]
    have hstateL : (db_lpop hash s [.astr k, .astr junk]).1 = putList hash s k l := by
      simp only [db_lpop, arg_string_to_uint, argAsUint, argAsString]
      rw [hj, hl]
      dsimp only
      rw [hcoreL]
    have hstateR : (db_rpop hash s [.astr k, .astr junk]).1 = putList hash s k l := by
      simp only [db_rpop, arg_string_to_uint, argAsUint, argAsString]
      rw [hj, hl]
      dsimp only
      rw [hcoreR]
    have hex : ∃ e, get_entry hash s k = some e := by
      unfold get_dllist at hl
      split at hl
      · rename_i e he
        exact ⟨e, he⟩
      · simp at hl
    refine ⟨?_, ?_, fun hTok => ?_⟩
    · simp only [db_lpop, arg_string_to_uint, argAsUint, argAsString]
      rw [hj, hl]
      dsimp only
      rw [hcoreL]
    · simp only [db_rpop, arg_string_to_uint, argAsUint, argAsString]
      rw [hj, hl]
      dsimp only
      rw [hcoreR]
    · obtain ⟨e, hge⟩ := hex
      constructor
      · rw [hstateL]
        unfold putList get_dllist
        rw [@get_entry_updateFirst_self hash s k
          (fun e => { e with val := DBVal.vlist l }) (fun _ => rfl) hTok, hge]
        rfl
      · rw [hstateR]
        unfold putList get_dllist
        rw [@get_entry_updateFirst_self hash s k
          (fun e => { e with val := DBVal.vlist l }) (fun _ => rfl) hTok, hge]
        rfl

/-- Witness for the amended C9 at a concrete instance: `LPOP k abc` on
the reachable state `k ↦ [x]` leaves the stored list `[x]` in place. -/
theorem malformed_count_coerces_zero_witness :
    get_dllist hashZero (db_lpop hashZero listKState [.astr "k", .astr "abc"]).1 "k"
      = some ⟨["x"], 1⟩ :=
  (((malformed_count_coerces_zero hashZero listKState "k" "abc" (by decide)).2.2
      ⟨["x"], 1⟩ (by decide)).2.2 (by decide)).1

/-! ## Concrete evaluation checks of the embedded operations -/

example : db_lpop_core ⟨["a", "b", "c"], 3⟩ 2 = (⟨["c"], 1⟩, ⟨["a", "b"], 2⟩) := by decide

example : db_rpop_core ⟨["a", "b", "c", "d", "e", "f", "g"], 7⟩ 2 =
    (⟨["a", "b", "c", "d", "e"], 5⟩, ⟨["f", "g"], 2⟩) := by decide

example : db_lrange_core ⟨["a", "b", "c", "d", "e", "f", "g"], 7⟩ 0 4 =
    ⟨["a", "b", "c", "d", "e"], 5⟩ := by decide

example : db_lrange_core ⟨["a", "b", "c", "d", "e", "f", "g"], 7⟩ 5 6 =
    ⟨["f", "g"], 2⟩ := by decide

example : db_lrange_core ⟨["a"], 1⟩ 2 3 = ⟨[], TWO64 - 1⟩ := by decide

example : db_lpop_core ⟨["a"], 1⟩ 2 = (⟨["a"], TWO64 - 1⟩, ⟨["a"], 2⟩) := by decide

example : strtoulDec "abc" = 0 := by decide

example : strtoulDec "  42x" = 42 := by decide

example : countKey (execTrace hashZero renameDupTrace) "k2" = 2 := by decide

example : get_entry hashZero (execTrace hashZero renameDupTrace) "k2" =
    some ⟨"k2", .vstr "v1"⟩ := by decide

example :
    (execTrace hashZero rehashDupTrace).t1 ≠ none ∧
    keyInTable (execTrace hashZero rehashDupTrace).t0 "k2" ∧
    keyInOpt (execTrace hashZero rehashDupTrace).t1 "k2" := by decide

end HW3DB
